import Mathlib

/-!
Verification of the syntax-set builder, linker and lookup surface of the
`syntect` grammar engine (`src/parsing/syntax_set.rs`).

The data model (`ContextId`, `Context`, `Pattern`, `ContextReference`,
`SyntaxDefinition`) lives in `syntax_definition.rs`, which is not part of the
sources under review; those types are modelled from the specification's data
model (§3), which describes them field by field.  All operations
(`SyntaxSetBuilder::build`, `link_ref`, `recursively_mark_no_prototype`,
`SyntaxSet::into_builder`, the `find_syntax_by_*` lookups and the
`FirstLineCache`) are translated directly from `syntax_set.rs`.

Modelling conventions:
* Rust `HashMap`s are association lists with unique keys; iteration order of a
  Rust `HashMap` is arbitrary, and wherever the source iterates one we use the
  list order (the results proved below are order-insensitive exactly where the
  source's correctness requires them to be).
* The oniguruma regex engine is an external collaborator (spec §1); regex
  compilation and searching are passed in as parameters `compile : String →
  Option R` (compilation may fail) and `search : R → String → Bool` (does the
  regex find a match anywhere in the line).
* File I/O in `find_syntax_for_file` is represented by an explicit
  `Except String String` value: the result of opening the file and reading its
  first line (`Except.error` for an I/O error).
* The mutex-guarded `first_line_cache` field of `SyntaxSet` is passed as an
  explicit `FirstLineCache` argument instead of living inside the structure.
* `Scope` equality is lexical (spec §3), so scopes are plain strings.
* Rust string comparison (`Ord` on `String`) is byte-lexicographic; since
  UTF-8 preserves codepoint order this is codepoint-lexicographic, embedded
  below as `strLe`.
-/

/-- Byte-lexicographic comparison on char lists (chars compared by codepoint,
which agrees with comparing their UTF-8 byte sequences). -/
def charsLe : List Char → List Char → Bool
  | [], _ => true
  | _ :: _, [] => false
  | a :: as, b :: bs =>
    if a.toNat < b.toNat then true
    else if b.toNat < a.toNat then false
    else charsLe as bs

/-- Byte-lexicographic order on strings, as used by Rust's `sort_by` with
`String::cmp`. -/
def strLe (a b : String) : Bool := charsLe a.data b.data

/-- Modelled from the spec: a `Scope` is equal iff lexically equal (§3), so we
represent scopes as their dotted-string form. -/
abbrev Scope := String

/-- Modelled from the spec: `ContextId` is a newtype around a non-negative
integer index into the flat context table (§3). -/
structure ContextId where
  index : Nat
deriving DecidableEq

/-- Modelled from the spec: pre-link reference variants `Named`, `Inline`,
`ByScope`, `File` and the post-link `Direct` (§3). -/
inductive ContextReference where
  | Named (s : String)
  | Inline (s : String)
  | ByScope (scope : Scope) (sub_context : Option String)
  | File (name : String) (sub_context : Option String)
  | Direct (id : ContextId)
deriving DecidableEq

/-- Modelled from the spec: `operation ∈ {None, Pop, Push(refs), Set(refs)}`
(§3). -/
inductive MatchOperation where
  | Push (refs : List ContextReference)
  | Set (refs : List ContextReference)
  | Pop
  | None
deriving DecidableEq

/-- Modelled from the spec: a match pattern `Match { regex, captures,
operation, with_prototype? }` (§3).  The regex source and capture flag are
carried verbatim and are inert for the operations verified here. -/
structure MatchPattern where
  has_captures : Bool
  regex_str : String
  scope : List Scope
  operation : MatchOperation
  with_prototype : Option ContextReference
deriving DecidableEq

/-- Modelled from the spec: a pattern is a match pattern or an include (§3). -/
inductive Pattern where
  | Match (mp : MatchPattern)
  | Include (r : ContextReference)
deriving DecidableEq

/-- Modelled from the spec: a context node: ordered patterns,
`meta_include_prototype` (default true), the `prototype` handle filled during
linking, and meta flags propagated verbatim from the definition (§3). -/
structure Context where
  meta_scope : List Scope
  meta_content_scope : List Scope
  meta_include_prototype : Bool
  clear_scopes : Option Nat
  patterns : List Pattern
  prototype : Option ContextId
deriving DecidableEq

/-- Default context value used for the (unreachable in `build`) out-of-bounds
access branch of the prototype walk. -/
def emptyContext : Context :=
  { meta_scope := [], meta_content_scope := [], meta_include_prototype := true,
    clear_scopes := none, patterns := [], prototype := none }

instance : Inhabited Context := ⟨emptyContext⟩

/-- Modelled from the spec: a parsed-but-unlinked grammar (§3); `contexts` is
a name-keyed map (association list with unique keys). -/
structure SyntaxDefinition where
  name : String
  file_extensions : List String
  scope : Scope
  first_line_match : Option String
  hidden : Bool
  vars : List (String × String)
  contexts : List (String × Context)
deriving DecidableEq

/-- A linked grammar: the per-name context map has been rewritten to
`ContextId`s (`SyntaxReference` in `syntax_set.rs`). -/
structure SyntaxReference where
  name : String
  file_extensions : List String
  scope : Scope
  first_line_match : Option String
  hidden : Bool
  vars : List (String × String)
  contexts : List (String × ContextId)
deriving DecidableEq

/-- The builder accumulating unlinked definitions (`SyntaxSetBuilder`). -/
structure SyntaxSetBuilder where
  syntaxes : List SyntaxDefinition
  path_syntaxes : List (String × Nat)
deriving DecidableEq

/-- The linked, immutable grammar set (`SyntaxSet`); the mutex-guarded first
line cache is modelled as an explicit argument to the lookups that use it. -/
structure SyntaxSet where
  syntaxes : List SyntaxReference
  contexts : List Context
  path_syntaxes : List (String × Nat)
deriving DecidableEq

/-- Lookup in an association list, as `HashMap::get` (keys are unique). -/
def mapGet {α : Type} (m : List (String × α)) (k : String) : Option α :=
  (m.find? (fun p => p.1 = k)).map (fun p => p.2)

/-- The list of context-table indices stored in a linked grammar's context
map. -/
def mapIds (syn : SyntaxReference) : List Nat :=
  syn.contexts.map (fun p => p.2.index)

/-- Insertion step of the stable by-name sort used in `build()` (Rust
`contexts.sort_by(|(a, _), (b, _)| a.cmp(b))`). -/
def insertCtx (p : String × Context) : List (String × Context) → List (String × Context)
  | [] => [p]
  | q :: rest => if strLe p.1 q.1 then p :: q :: rest else q :: insertCtx p rest

/-- Sort a syntax definition's `(name, context)` pairs by name,
byte-lexicographically (`build()` phase 1). -/
def sortContexts : List (String × Context) → List (String × Context)
  | [] => []
  | p :: rest => insertCtx p (sortContexts rest)

/-- Assign consecutive `ContextId`s, starting at `start`, to an
already-sorted list of named contexts (the `map.insert(name,
ContextId::new(index))` loop of `build()`). -/
def withIdsFrom (start : Nat) : List (String × Context) → List (String × ContextId)
  | [] => []
  | (n, _) :: rest => (n, ⟨start⟩) :: withIdsFrom (start + 1) rest

/-- Phase 1 of `build()` for one definition: sort its contexts by name, push
them at positions `start, start+1, …` and record the `name → ContextId`
map. -/
def buildSyn (start : Nat) (sd : SyntaxDefinition) : SyntaxReference × List Context :=
  let sorted := sortContexts sd.contexts
  ({ name := sd.name
     file_extensions := sd.file_extensions
     scope := sd.scope
     first_line_match := sd.first_line_match
     hidden := sd.hidden
     vars := sd.vars
     contexts := withIdsFrom start sorted },
   sorted.map (fun p => p.2))

/-- Phase 1 of `build()`: flatten every definition's contexts into one vector,
`start` being the number of contexts already pushed. -/
def assignFrom (start : Nat) : List SyntaxDefinition → List SyntaxReference × List Context
  | [] => ([], [])
  | sd :: rest =>
    let (syn, ctxs) := buildSyn start sd
    let (syns, more) := assignFrom (start + ctxs.length) rest
    (syn :: syns, ctxs ++ more)

/-- Total number of contexts contributed by a list of definitions. -/
def totalCtxs (defs : List SyntaxDefinition) : Nat :=
  (defs.map (fun d => d.contexts.length)).sum

/-- Resolution of one `ContextReference` (`link_ref` in `syntax_set.rs`):
`Named`/`Inline` strings are looked up in the current grammar's own map, with
the `$top_level_main` legacy fallback to `main`; `ByScope`/`File` search all
grammars linearly; `Direct` is never re-resolved. -/
def resolveRef (syn : SyntaxReference) (syns : List SyntaxReference) :
    ContextReference → Option ContextId
  | .Named s | .Inline s =>
    if s = "$top_level_main" then mapGet syn.contexts "main"
    else mapGet syn.contexts s
  | .ByScope scope sub_context =>
    (syns.find? (fun s => s.scope = scope)).bind
      (fun s => mapGet s.contexts (sub_context.getD "main"))
  | .File name sub_context =>
    (syns.find? (fun s => s.name = name)).bind
      (fun s => mapGet s.contexts (sub_context.getD "main"))
  | .Direct _ => none

/-- The in-place rewrite of `link_ref`: on successful resolution the reference
becomes `Direct(id)`; on failure it is left intact and no error is raised. -/
def link_ref (syn : SyntaxReference) (syns : List SyntaxReference)
    (r : ContextReference) : ContextReference :=
  match resolveRef syn syns r with
  | some id => .Direct id
  | none => r

/-- `link_match_pat`: link every operand of a `Push`/`Set` operation and the
`with_prototype` slot. -/
def link_match_pat (syn : SyntaxReference) (syns : List SyntaxReference)
    (mp : MatchPattern) : MatchPattern :=
  { mp with
    operation :=
      match mp.operation with
      | .Push refs => .Push (refs.map (link_ref syn syns))
      | .Set refs => .Set (refs.map (link_ref syn syns))
      | .Pop => .Pop
      | .None => .None
    with_prototype := mp.with_prototype.map (link_ref syn syns) }

/-- `link_context`: link every pattern of a context. -/
def link_context (syn : SyntaxReference) (syns : List SyntaxReference)
    (c : Context) : Context :=
  { c with
    patterns := c.patterns.map (fun p =>
      match p with
      | .Match mp => .Match (link_match_pat syn syns mp)
      | .Include r => .Include (link_ref syn syns r)) }

/-- Per-pattern edges of the prototype walk
(`recursively_mark_no_prototype`): `Named`/`Inline` operands of `Push`/`Set`
and `Include(Named)` targets, each resolved in the current grammar's own map;
`Include(Inline)`, `ByScope`, `File` and `Direct` are not traversed. -/
def patternProtoTargets (syn : SyntaxReference) (p : Pattern) : List Nat :=
  match p with
  | .Match mp =>
    match mp.operation with
    | .Push refs | .Set refs =>
      refs.filterMap (fun r =>
        match r with
        | .Inline s | .Named s => (mapGet syn.contexts s).map (fun id => id.index)
        | _ => none)
    | .Pop | .None => []
  | .Include (.Named s) => ((mapGet syn.contexts s).map (fun id => id.index)).toList
  | .Include _ => []

/-- All prototype-walk edges out of one context, in pattern order. -/
def protoTargets (syn : SyntaxReference) (c : Context) : List Nat :=
  (c.patterns.map (patternProtoTargets syn)).flatten

/-- `recursively_mark_no_prototype`: mark `cid` and everything reachable from
it inside the current grammar as not implicitly inheriting the prototype.  The
Rust recursion terminates through the inserted set; here the same recursion is
driven by a fuel argument, which `build` instantiates with
`contexts.length + 1` — enough that it never runs out, because every id the
walk inserts is a distinct member of the grammar's own context map. -/
def recursively_mark_no_prototype (syn : SyntaxReference) (ctxs : List Context) :
    Nat → Nat → List Nat → List Nat
  | 0, _, acc => acc
  | fuel + 1, cid, acc =>
    if cid ∈ acc then acc
    else
      (protoTargets syn (ctxs.getD cid emptyContext)).foldl
        (fun a i => recursively_mark_no_prototype syn ctxs fuel i a) (cid :: acc)

/-- The set of contexts of `syn` that must not inherit the prototype: empty
when the grammar has no `prototype` context, otherwise the walk started at
it. -/
def noProtoSet (syn : SyntaxReference) (ctxs : List Context) : List Nat :=
  match mapGet syn.contexts "prototype" with
  | some pid => recursively_mark_no_prototype syn ctxs (ctxs.length + 1) pid.index []
  | none => []

/-- Prototype attachment for one context (`build()` phase 4): when the grammar
has a prototype, a context with `meta_include_prototype` that is not in the
no-prototype set gets its `prototype` field set to the prototype's id. -/
def applyProto (protoId : Option ContextId) (noProto : List Nat) (i : Nat)
    (c : Context) : Context :=
  match protoId with
  | some pid =>
    if c.meta_include_prototype && !(noProto.contains i) then { c with prototype := some pid }
    else c
  | none => c

/-- The whole per-context processing of `build()`'s second loop: prototype
attachment followed by `link_context`. -/
def transformCtx (syns : List SyntaxReference) (syn : SyntaxReference)
    (protoId : Option ContextId) (noProto : List Nat) (i : Nat) (c : Context) : Context :=
  link_context syn syns (applyProto protoId noProto i c)

/-- Iterate one grammar's context map, rewriting the flat vector in place at
each of its ids (`for context_id in syntax.contexts.values()`). -/
def processEntries (syns : List SyntaxReference) (syn : SyntaxReference)
    (protoId : Option ContextId) (noProto : List Nat) :
    List (String × ContextId) → List Context → List Context
  | [], ctxs => ctxs
  | (_, cid) :: rest, ctxs =>
    let ctxs' :=
      match ctxs[cid.index]? with
      | some c => ctxs.set cid.index (transformCtx syns syn protoId noProto cid.index c)
      | none => ctxs
    processEntries syns syn protoId noProto rest ctxs'

/-- Process one grammar: compute its no-prototype set, then attach prototypes
and link each of its contexts. -/
def processOne (syns : List SyntaxReference) (syn : SyntaxReference)
    (ctxs : List Context) : List Context :=
  processEntries syns syn (mapGet syn.contexts "prototype") (noProtoSet syn ctxs)
    syn.contexts ctxs

/-- Phases 2–4 of `build()`: process every grammar in order against the flat
context vector. -/
def linkAll (all : List SyntaxReference) :
    List SyntaxReference → List Context → List Context
  | [], ctxs => ctxs
  | syn :: rest, ctxs => linkAll all rest (processOne all syn ctxs)

/-- `SyntaxSetBuilder::build`: assign ids (phase 1), then link and attach
prototypes; `path_syntaxes` passes through; the first-line cache starts
empty. -/
def SyntaxSetBuilder.build (b : SyntaxSetBuilder) : SyntaxSet :=
  let pair := assignFrom 0 b.syntaxes
  { syntaxes := pair.1
    contexts := linkAll pair.1 pair.1 pair.2
    path_syntaxes := b.path_syntaxes }

/-- Remove a key from the id-keyed context map of `into_builder`
(`HashMap::remove`). -/
def removeCtx (cmap : List (Nat × Context)) (k : Nat) :
    Option Context × List (Nat × Context) :=
  match cmap.find? (fun p => p.1 = k) with
  | some p => (some p.2, cmap.filter (fun q => !(q.1 = k : Bool)))
  | none => (none, cmap)

/-- Rebuild one grammar's name-keyed context map by taking each of its
contexts out of the shared id-keyed map (`into_builder`'s inner loop); ids
missing from the map are skipped. -/
def rebuildCtxList : List (String × ContextId) → List (Nat × Context) →
    List (String × Context) × List (Nat × Context)
  | [], cmap => ([], cmap)
  | (n, cid) :: rest, cmap =>
    match removeCtx cmap cid.index with
    | (some c, cmap') =>
      let (l, cmap'') := rebuildCtxList rest cmap'
      ((n, c) :: l, cmap'')
    | (none, cmap') => rebuildCtxList rest cmap'

/-- Rebuild every grammar back into an unlinked definition, threading the
shared context map. -/
def rebuildDefs : List SyntaxReference → List (Nat × Context) →
    List SyntaxDefinition × List (Nat × Context)
  | [], cmap => ([], cmap)
  | syn :: rest, cmap =>
    let (ctxs, cmap1) := rebuildCtxList syn.contexts cmap
    let (defs, cmap2) := rebuildDefs rest cmap1
    ({ name := syn.name
       file_extensions := syn.file_extensions
       scope := syn.scope
       first_line_match := syn.first_line_match
       hidden := syn.hidden
       vars := syn.vars
       contexts := ctxs } :: defs, cmap2)

/-- Index every context of the flat vector by its position (the
`context_map` of `into_builder`). -/
def idxPairs (start : Nat) : List Context → List (Nat × Context)
  | [] => []
  | c :: rest => (start, c) :: idxPairs (start + 1) rest

/-- `SyntaxSet::into_builder`: move the contexts back into per-grammar
name-keyed maps; `path_syntaxes` passes through and the first-line cache is
discarded. -/
def SyntaxSet.into_builder (s : SyntaxSet) : SyntaxSetBuilder :=
  { syntaxes := (rebuildDefs s.syntaxes (idxPairs 0 s.contexts)).1
    path_syntaxes := s.path_syntaxes }

/-- `SyntaxSet::get_context`: index into the flat vector (the Rust indexing
panics out of bounds; the `Option` records exactly when that would happen). -/
def SyntaxSet.get_context (s : SyntaxSet) (cid : ContextId) : Option Context :=
  s.contexts[cid.index]?

/-- `find_syntax_by_scope`: linear search, first grammar whose default scope
equals the query. -/
def SyntaxSet.find_syntax_by_scope (s : SyntaxSet) (scope : Scope) :
    Option SyntaxReference :=
  s.syntaxes.find? (fun syn => syn.scope = scope)

/-- `find_syntax_by_name`: exact, case-sensitive name equality. -/
def SyntaxSet.find_syntax_by_name (s : SyntaxSet) (name : String) :
    Option SyntaxReference :=
  s.syntaxes.find? (fun syn => name = syn.name)

/-- `find_syntax_by_extension`: first grammar whose `file_extensions` contains
the query (exact equality). -/
def SyntaxSet.find_syntax_by_extension (s : SyntaxSet) (extension : String) :
    Option SyntaxReference :=
  s.syntaxes.find? (fun syn => syn.file_extensions.any (fun e => e = extension))

/-- ASCII lowercasing of one char (`eq_ignore_ascii_case`). -/
def asciiLower (c : Char) : Char :=
  if 'A' ≤ c ∧ c ≤ 'Z' then Char.ofNat (c.toNat + 32) else c

/-- Rust `str::eq_ignore_ascii_case`. -/
def eqIgnoreAsciiCase (a b : String) : Bool :=
  a.data.map asciiLower = b.data.map asciiLower

/-- `find_syntax_by_token`: extension match first, then ASCII
case-insensitive name match. -/
def SyntaxSet.find_syntax_by_token (s : SyntaxSet) (tok : String) :
    Option SyntaxReference :=
  match s.find_syntax_by_extension tok with
  | some r => some r
  | none => s.syntaxes.find? (fun syn => eqIgnoreAsciiCase syn.name tok)

/-- Rust `str::ends_with`: byte-suffix test, which on valid UTF-8 strings is
the char-list suffix test. -/
def strEndsWith (a b : String) : Bool := b.data.isSuffixOf a.data

/-- `find_syntax_by_path`: first recorded path equal to the query or ending in
`"/" + query`, mapped to its grammar. -/
def SyntaxSet.find_syntax_by_path (s : SyntaxSet) (path : String) :
    Option SyntaxReference :=
  (s.path_syntaxes.find? (fun t => strEndsWith t.1 ("/" ++ path) || t.1 = path)).bind
    (fun t => s.syntaxes[t.2]?)

/-- The lazily built first-line cache: `(compiled regex, index)` pairs plus
the number of grammars already processed. -/
structure FirstLineCache (R : Type) where
  regexes : List (R × Nat)
  cached_until : Nat
deriving DecidableEq

/-- The empty cache (`FirstLineCache::new`). -/
def FirstLineCache.new (R : Type) : FirstLineCache R :=
  { regexes := [], cached_until := 0 }

/-- `FirstLineCache::ensure_filled`: a no-op when everything is cached;
otherwise enumerate the tail `syntaxes[cached_until..]`, compile each present
`first_line_match`, push `(regex, i)` pairs (with `i` the enumeration index of
the slice, exactly as the source does), discard compile failures and record
the new high-water mark. -/
def ensure_filled {R : Type} (compile : String → Option R)
    (cache : FirstLineCache R) (syns : List SyntaxReference) : FirstLineCache R :=
  if cache.cached_until ≥ syns.length then cache
  else
    { regexes := cache.regexes ++
        ((syns.drop cache.cached_until).enum.filterMap (fun p =>
          p.2.first_line_match.bind (fun reg_str =>
            (compile reg_str).map (fun reg => (reg, p.1)))))
      cached_until := syns.length }

/-- `find_syntax_by_first_line`: fill the cache, then return the grammar at
the stored index of the first pair whose regex finds a match in the line. -/
def SyntaxSet.find_syntax_by_first_line {R : Type} (s : SyntaxSet)
    (compile : String → Option R) (search : R → String → Bool)
    (cache : FirstLineCache R) (line : String) :
    Option SyntaxReference × FirstLineCache R :=
  let cache := ensure_filled compile cache s.syntaxes
  (((cache.regexes.find? (fun p => search p.1 line)).bind
      (fun p => s.syntaxes[p.2]?)), cache)

/-- Split a char list at every occurrence of a separator (the pieces keep
their order; `n` separators yield `n+1` pieces). -/
def splitOnChar (sep : Char) : List Char → List (List Char)
  | [] => [[]]
  | c :: rest =>
    match splitOnChar sep rest with
    | [] => if c = sep then [[], []] else [[c]]
    | g :: gs => if c = sep then [] :: g :: gs else (c :: g) :: gs

/-- Modelled from the spec: Rust `Path::file_name` — the final non-empty,
non-`.` component of a `/`-separated path, undefined when the path ends in
`..` or has no such component. -/
def pathFileName (p : String) : Option String :=
  match ((splitOnChar '/' p.data).filter
      (fun c => !(c = ([] : List Char) : Bool) && !(c = ['.'] : Bool))).getLast? with
  | none => none
  | some c => if c = ['.', '.'] then none else some (String.mk c)

/-- Modelled from the spec: Rust `Path::extension` — the part of the file name
after its last dot, undefined when there is no dot or the only dot leads the
name (hidden files like `.bashrc`). -/
def pathExtension (p : String) : Option String :=
  (pathFileName p).bind (fun name =>
    match splitOnChar '.' name.data with
    | [] => none
    | [_] => none
    | a :: b :: rest =>
      if (a :: b :: rest).dropLast = [[]] then none
      else ((a :: b :: rest).getLast?).map (fun l => String.mk l))

/-- `find_syntax_for_file`: try the whole basename as an extension, then the
dotted extension (absent or non-decodable components become `""`); only when
both fail is the file's first line consulted, with I/O errors propagating.
The `file` argument is the outcome of opening the file and reading its first
line. -/
def SyntaxSet.find_syntax_for_file {R : Type} (s : SyntaxSet)
    (compile : String → Option R) (search : R → String → Bool)
    (cache : FirstLineCache R) (path : String) (file : Except String String) :
    Except String (Option SyntaxReference) :=
  let file_name := (pathFileName path).getD ""
  let extension := (pathExtension path).getD ""
  let ext_syntax :=
    match s.find_syntax_by_extension file_name with
    | some r => some r
    | none => s.find_syntax_by_extension extension
  match ext_syntax with
  | some r => .ok (some r)
  | none =>
    match file with
    | .error e => .error e
    | .ok line => .ok (s.find_syntax_by_first_line compile search cache line).1

/-! ### Order lemmas for the byte-lexicographic comparison -/

theorem charToNat_inj {a b : Char} (h : a.toNat = b.toNat) : a = b := by
  cases a; cases b
  simp only [Char.toNat] at h
  congr 1
  exact UInt32.ext h

theorem charsLe_total (a b : List Char) : charsLe a b = true ∨ charsLe b a = true := by
  induction a generalizing b with
  | nil => left; rfl
  | cons x xs ih =>
    cases b with
    | nil => right; rfl
    | cons y ys =>
      by_cases hxy : x.toNat < y.toNat
      · left; simp [charsLe, hxy]
      · by_cases hyx : y.toNat < x.toNat
        · right; simp [charsLe, hyx]
        · rcases ih ys with h | h
          · left; simp [charsLe, hxy, hyx, h]
          · right; simp [charsLe, hxy, hyx, h]

theorem charsLe_antisymm {a b : List Char} (h1 : charsLe a b = true)
    (h2 : charsLe b a = true) : a = b := by
  induction a generalizing b with
  | nil =>
    cases b with
    | nil => rfl
    | cons y ys => simp [charsLe] at h2
  | cons x xs ih =>
    cases b with
    | nil => simp [charsLe] at h1
    | cons y ys =>
      by_cases hxy : x.toNat < y.toNat
      · simp [charsLe, hxy, Nat.lt_asymm hxy] at h2
      · by_cases hyx : y.toNat < x.toNat
        · simp [charsLe, hxy, hyx] at h1
        · have hx : x = y := charToNat_inj (Nat.le_antisymm (Nat.le_of_not_lt hyx) (Nat.le_of_not_lt hxy))
          subst hx
          simp only [charsLe, hxy, if_neg, ite_self] at h1 h2
          rw [ih h1 h2]

theorem charsLe_trans {a b c : List Char} (h1 : charsLe a b = true)
    (h2 : charsLe b c = true) : charsLe a c = true := by
  induction a generalizing b c with
  | nil => rfl
  | cons x xs ih =>
    cases b with
    | nil => simp [charsLe] at h1
    | cons y ys =>
      cases c with
      | nil => simp [charsLe] at h2
      | cons z zs =>
        simp only [charsLe] at h1 h2 ⊢
        by_cases hxy : x.toNat < y.toNat
        · by_cases hyz : y.toNat < z.toNat
          · simp [Nat.lt_trans hxy hyz]
          · by_cases hzy : z.toNat < y.toNat
            · simp [hyz, hzy] at h2
            · have : y.toNat = z.toNat := Nat.le_antisymm (Nat.le_of_not_lt hzy) (Nat.le_of_not_lt hyz)
              simp [this ▸ hxy]
        · by_cases hyx : y.toNat < x.toNat
          · simp [hxy, hyx] at h1
          · have hxyeq : x.toNat = y.toNat := Nat.le_antisymm (Nat.le_of_not_lt hyx) (Nat.le_of_not_lt hxy)
            by_cases hyz : y.toNat < z.toNat
            · simp [hxyeq ▸ hyz]
            · by_cases hzy : z.toNat < y.toNat
              · simp [hyz, hzy] at h2
              · have hxz : ¬ x.toNat < z.toNat := by omega
                have hzx : ¬ z.toNat < x.toNat := by omega
                simp only [hxy, hyx, if_neg, ite_false, if_false] at h1
                simp only [hyz, hzy, if_neg, ite_false, if_false] at h2
                simp [hxz, hzx, ih h1 h2]

theorem strLe_total (a b : String) : strLe a b = true ∨ strLe b a = true :=
  charsLe_total a.data b.data

theorem strLe_antisymm {a b : String} (h1 : strLe a b = true)
    (h2 : strLe b a = true) : a = b :=
  String.ext (charsLe_antisymm h1 h2)

theorem strLe_trans {a b c : String} (h1 : strLe a b = true)
    (h2 : strLe b c = true) : strLe a c = true :=
  charsLe_trans h1 h2

/-! ### The by-name sort of `build()` phase 1 -/

/-- Key-order relation on named contexts. -/
def keyLe (a b : String × Context) : Prop := strLe a.1 b.1 = true

theorem insertCtx_perm (p : String × Context) (l : List (String × Context)) :
    (insertCtx p l).Perm (p :: l) := by
  induction l with
  | nil => simp [insertCtx]
  | cons q rest ih =>
    by_cases h : strLe p.1 q.1
    · simp [insertCtx, h]
    · simp only [insertCtx, h, ite_false, if_false, Bool.false_eq_true]
      exact (ih.cons q).trans (List.Perm.swap p q rest)

theorem sortContexts_perm (l : List (String × Context)) : (sortContexts l).Perm l := by
  induction l with
  | nil => rfl
  | cons p rest ih =>
    exact (insertCtx_perm p (sortContexts rest)).trans (ih.cons p)

theorem sortContexts_length (l : List (String × Context)) :
    (sortContexts l).length = l.length :=
  (sortContexts_perm l).length_eq

theorem insertCtx_pairwise (p : String × Context) (l : List (String × Context))
    (h : l.Pairwise keyLe) : (insertCtx p l).Pairwise keyLe := by
  induction l with
  | nil => simp [insertCtx, List.pairwise_cons]
  | cons q rest ih =>
    rcases List.pairwise_cons.mp h with ⟨hq, hrest⟩
    by_cases hle : strLe p.1 q.1
    · simp only [insertCtx, hle, ite_true, if_true]
      refine List.pairwise_cons.mpr ⟨?_, h⟩
      intro a ha
      rcases List.mem_cons.mp ha with rfl | ha
      · exact hle
      · exact strLe_trans hle (hq a ha)
    · simp only [insertCtx, hle, ite_false, if_false, Bool.false_eq_true]
      refine List.pairwise_cons.mpr ⟨?_, ih hrest⟩
      intro a ha
      have := (insertCtx_perm p rest).mem_iff.mp ha
      rcases List.mem_cons.mp this with rfl | ha'
      · rcases strLe_total a.1 q.1 with h1 | h1
        · exact absurd h1 hle
        · exact h1
      · exact hq a ha'

theorem sortContexts_pairwise (l : List (String × Context)) :
    (sortContexts l).Pairwise keyLe := by
  induction l with
  | nil => exact List.Pairwise.nil
  | cons p rest ih => exact insertCtx_pairwise p _ ih

/-- Two key-sorted lists with duplicate-free keys that are permutations of
each other are equal. -/
theorem eq_of_perm_sorted_keys {l₁ l₂ : List (String × Context)}
    (hperm : l₁.Perm l₂) (h1 : l₁.Pairwise keyLe) (h2 : l₂.Pairwise keyLe)
    (hnd : (l₁.map Prod.fst).Nodup) : l₁ = l₂ := by
  induction l₁ generalizing l₂ with
  | nil => exact (List.Perm.nil_eq hperm).symm ▸ rfl
  | cons a t₁ ih =>
    cases l₂ with
    | nil => exact absurd hperm.symm (by simp)
    | cons b t₂ =>
      rcases List.pairwise_cons.mp h1 with ⟨ha, ht1⟩
      rcases List.pairwise_cons.mp h2 with ⟨hb, ht2⟩
      by_cases hab : a = b
      · subst hab
        have : t₁.Perm t₂ := hperm.cons_inv
        have hnd' : (t₁.map Prod.fst).Nodup := by
          simpa using (List.nodup_cons.mp (by simpa using hnd)).2
        rw [ih this ht1 ht2 hnd']
      · exfalso
        have hbmem : b ∈ a :: t₁ := hperm.symm.mem_iff.mp (List.mem_cons_self b t₂)
        have hamem : a ∈ b :: t₂ := hperm.mem_iff.mp (List.mem_cons_self a t₁)
        rcases List.mem_cons.mp hbmem with rfl | hbt1
        · exact hab rfl
        rcases List.mem_cons.mp hamem with heq | hat2
        · exact hab heq
        have h1' : strLe a.1 b.1 = true := ha b hbt1
        have h2' : strLe b.1 a.1 = true := hb a hat2
        have : a.1 = b.1 := strLe_antisymm h1' h2'
        have : a.1 ∈ t₁.map Prod.fst := this ▸ List.mem_map_of_mem Prod.fst hbt1
        exact (List.nodup_cons.mp (by simpa using hnd)).1 this

/-- The sort is canonical: with duplicate-free keys the sorted result is
invariant under permutation of the input — this is exactly why `build()` is
deterministic despite iterating a `HashMap`. -/
theorem sortContexts_eq_of_perm {l₁ l₂ : List (String × Context)}
    (hperm : l₁.Perm l₂) (hnd : (l₁.map Prod.fst).Nodup) :
    sortContexts l₁ = sortContexts l₂ := by
  have hp : (sortContexts l₁).Perm (sortContexts l₂) :=
    ((sortContexts_perm l₁).trans hperm).trans (sortContexts_perm l₂).symm
  have hnd1 : ((sortContexts l₁).map Prod.fst).Nodup :=
    (hnd.perm ((sortContexts_perm l₁).map Prod.fst).symm)
  exact eq_of_perm_sorted_keys hp (sortContexts_pairwise l₁) (sortContexts_pairwise l₂) hnd1

/-! ### Structure of phase 1 (`assignFrom`) -/

theorem withIdsFrom_length (start : Nat) (l : List (String × Context)) :
    (withIdsFrom start l).length = l.length := by
  induction l generalizing start with
  | nil => rfl
  | cons p rest ih => cases p; simp [withIdsFrom, ih]

theorem withIdsFrom_getElem? (start : Nat) (l : List (String × Context)) (j : Nat) :
    (withIdsFrom start l)[j]? = l[j]?.map (fun p => (p.1, (⟨start + j⟩ : ContextId))) := by
  induction l generalizing start j with
  | nil => simp [withIdsFrom]
  | cons p rest ih =>
    cases p with
    | mk n c =>
      cases j with
      | zero => simp [withIdsFrom]
      | succ j =>
        simp only [withIdsFrom, List.getElem?_cons_succ, ih (start + 1) j]
        have : start + 1 + j = start + (j + 1) := by omega
        rw [this]

theorem withIdsFrom_ids (start : Nat) (l : List (String × Context)) :
    (withIdsFrom start l).map (fun p => p.2.index) = List.range' start l.length := by
  induction l generalizing start with
  | nil => rfl
  | cons p rest ih => cases p; simp [withIdsFrom, List.range'_succ, ih]

theorem buildSyn_contexts (start : Nat) (sd : SyntaxDefinition) :
    (buildSyn start sd).1.contexts = withIdsFrom start (sortContexts sd.contexts) := rfl

theorem buildSyn_snd (start : Nat) (sd : SyntaxDefinition) :
    (buildSyn start sd).2 = (sortContexts sd.contexts).map Prod.snd := rfl

theorem buildSyn_snd_length (start : Nat) (sd : SyntaxDefinition) :
    (buildSyn start sd).2.length = sd.contexts.length := by
  simp [buildSyn_snd, sortContexts_length]

theorem buildSyn_mapIds (start : Nat) (sd : SyntaxDefinition) :
    mapIds (buildSyn start sd).1 = List.range' start sd.contexts.length := by
  simp [mapIds, buildSyn_contexts, withIdsFrom_ids, sortContexts_length]

theorem totalCtxs_cons (d : SyntaxDefinition) (rest : List SyntaxDefinition) :
    totalCtxs (d :: rest) = d.contexts.length + totalCtxs rest := by
  simp [totalCtxs]

theorem assignFrom_fst_length (start : Nat) (defs : List SyntaxDefinition) :
    (assignFrom start defs).1.length = defs.length := by
  induction defs generalizing start with
  | nil => rfl
  | cons d rest ih => simp [assignFrom, ih]

theorem assignFrom_snd_length (start : Nat) (defs : List SyntaxDefinition) :
    (assignFrom start defs).2.length = totalCtxs defs := by
  induction defs generalizing start with
  | nil => rfl
  | cons d rest ih =>
    simp [assignFrom, totalCtxs_cons, buildSyn_snd_length, ih]

theorem assignFrom_fst_getElem? (start : Nat) (defs : List SyntaxDefinition)
    (k : Nat) :
    (assignFrom start defs).1[k]? =
      (defs[k]?).map (fun sd => (buildSyn (start + totalCtxs (defs.take k)) sd).1) := by
  induction defs generalizing start k with
  | nil => simp [assignFrom]
  | cons d rest ih =>
    cases k with
    | zero => simp [assignFrom, totalCtxs]
    | succ k =>
      simp only [assignFrom, List.getElem?_cons_succ]
      rw [ih (start + (buildSyn start d).2.length) k]
      have h1 : (d :: rest).take (k + 1) = d :: rest.take k := rfl
      rw [h1, totalCtxs_cons, buildSyn_snd_length]
      have : start + d.contexts.length + totalCtxs (rest.take k)
          = start + (d.contexts.length + totalCtxs (rest.take k)) := by omega
      rw [this]

/-- The flat context vector decomposes, at every grammar, into the contexts
pushed before it, its own sorted contexts, and the rest. -/
theorem assignFrom_decomp (start : Nat) (defs : List SyntaxDefinition)
    (k : Nat) (sd : SyntaxDefinition) (hk : defs[k]? = some sd) :
    ∃ pre post, (assignFrom start defs).2 = pre ++ (sortContexts sd.contexts).map Prod.snd ++ post
      ∧ pre.length = totalCtxs (defs.take k) := by
  induction defs generalizing start k with
  | nil => simp at hk
  | cons d rest ih =>
    cases k with
    | zero =>
      simp only [List.getElem?_cons_zero, Option.some.injEq] at hk
      subst hk
      refine ⟨[], (assignFrom (start + (buildSyn start d).2.length) rest).2, ?_, ?_⟩
      · simp [assignFrom, buildSyn_snd]
      · simp [totalCtxs]
    | succ k =>
      simp only [List.getElem?_cons_succ] at hk
      rcases ih (start + (buildSyn start d).2.length) k hk with ⟨pre, post, hdec, hlen⟩
      refine ⟨(buildSyn start d).2 ++ pre, post, ?_, ?_⟩
      · simp [assignFrom, hdec]
      · have h1 : (d :: rest).take (k + 1) = d :: rest.take k := rfl
        rw [h1, totalCtxs_cons]
        simp [hlen, buildSyn_snd_length]

/-- All ids handed out in phase 1, in grammar order then map order, are
exactly the positions of the flat vector. -/
theorem assignFrom_ids_flat (start : Nat) (defs : List SyntaxDefinition) :
    (((assignFrom start defs).1.map mapIds).flatten) = List.range' start (totalCtxs defs) := by
  induction defs generalizing start with
  | nil => rfl
  | cons d rest ih =>
    simp only [assignFrom, List.map_cons, List.flatten_cons, buildSyn_mapIds,
      buildSyn_snd_length, ih, totalCtxs_cons]
    have := List.range'_append start d.contexts.length (totalCtxs rest) 1
    simp only [Nat.one_mul] at this
    rw [this, Nat.add_comm (totalCtxs rest) d.contexts.length]

/-! ### Map lookups and the prototype walk -/

theorem mapGet_index_mem {m : List (String × ContextId)} {k : String} {id : ContextId}
    (h : mapGet m k = some id) : id.index ∈ m.map (fun p => p.2.index) := by
  rcases Option.map_eq_some'.mp h with ⟨p, hfind, hp⟩
  subst hp
  exact List.mem_map_of_mem _ (List.mem_of_find?_eq_some hfind)

theorem mapGet_mem {α : Type} {m : List (String × α)} {k : String} {v : α}
    (h : mapGet m k = some v) : ∃ n, (n, v) ∈ m := by
  rcases Option.map_eq_some'.mp h with ⟨p, hfind, hp⟩
  exact ⟨p.1, by simpa [← hp] using List.mem_of_find?_eq_some hfind⟩

theorem protoTargets_subset {syn : SyntaxReference} {c : Context} {t : Nat}
    (h : t ∈ protoTargets syn c) : t ∈ mapIds syn := by
  rcases List.mem_flatten.mp h with ⟨l, hl, htl⟩
  rcases List.mem_map.mp hl with ⟨p, _, hp⟩
  subst hp
  cases p with
  | Match mp =>
    cases hop : mp.operation with
    | Push refs | Set refs =>
      simp only [patternProtoTargets, hop] at htl
      rcases List.mem_filterMap.mp htl with ⟨r, _, hr⟩
      cases r with
      | Named s =>
        rcases Option.map_eq_some'.mp (by simpa using hr) with ⟨id, hm, hidx⟩
        simpa [mapIds, ← hidx] using mapGet_index_mem hm
      | Inline s =>
        rcases Option.map_eq_some'.mp (by simpa using hr) with ⟨id, hm, hidx⟩
        simpa [mapIds, ← hidx] using mapGet_index_mem hm
      | ByScope sc sub => simp at hr
      | File n sub => simp at hr
      | Direct i => simp at hr
    | Pop => simp [patternProtoTargets, hop] at htl
    | None => simp [patternProtoTargets, hop] at htl
  | Include r =>
    cases r with
    | Named s =>
      simp only [patternProtoTargets] at htl
      cases hm : mapGet syn.contexts s with
      | none => simp [hm] at htl
      | some id =>
        simp only [hm, Option.map_some', Option.toList_some, List.mem_singleton] at htl
        subst htl
        exact mapGet_index_mem hm
    | Inline s => simp [patternProtoTargets] at htl
    | ByScope sc sub => simp [patternProtoTargets] at htl
    | File n sub => simp [patternProtoTargets] at htl
    | Direct i => simp [patternProtoTargets] at htl

theorem getD_congr {l₁ l₂ : List Context} {i : Nat} (h : l₁[i]? = l₂[i]?) :
    l₁.getD i emptyContext = l₂.getD i emptyContext := by
  simp [List.getD_eq_getElem?_getD, h]

/-- The prototype walk reads only the current grammar's own contexts, so it is
insensitive to any difference in the flat vector outside them. -/
theorem recursively_mark_no_prototype_congr (syn : SyntaxReference)
    {ctxs1 ctxs2 : List Context} (hag : ∀ i ∈ mapIds syn, ctxs1[i]? = ctxs2[i]?) :
    ∀ fuel cid acc, cid ∈ mapIds syn →
      recursively_mark_no_prototype syn ctxs1 fuel cid acc
        = recursively_mark_no_prototype syn ctxs2 fuel cid acc := by
  intro fuel
  induction fuel with
  | zero => intro cid acc _; rfl
  | succ fuel ih =>
    intro cid acc hcid
    simp only [recursively_mark_no_prototype]
    by_cases hmem : cid ∈ acc
    · simp [hmem]
    · simp only [hmem, ite_false, if_false]
      have hread : ctxs1.getD cid emptyContext = ctxs2.getD cid emptyContext :=
        getD_congr (hag cid hcid)
      rw [hread]
      have : ∀ (ts : List Nat), (∀ t ∈ ts, t ∈ mapIds syn) → ∀ acc',
          ts.foldl (fun a i => recursively_mark_no_prototype syn ctxs1 fuel i a) acc'
            = ts.foldl (fun a i => recursively_mark_no_prototype syn ctxs2 fuel i a) acc' := by
        intro ts
        induction ts with
        | nil => intro _ _; rfl
        | cons t rest ihts =>
          intro hts acc'
          simp only [List.foldl_cons]
          rw [ih t acc' (hts t (List.mem_cons_self t rest))]
          exact ihts (fun u hu => hts u (List.mem_cons.mpr (Or.inr hu))) _
      exact this _ (fun t ht => protoTargets_subset ht) _

/-- The no-prototype set of one grammar depends only on that grammar's own
contexts (and the vector length, which fixes the fuel). -/
theorem noProtoSet_congr (syn : SyntaxReference) {ctxs1 ctxs2 : List Context}
    (hlen : ctxs1.length = ctxs2.length)
    (hag : ∀ i ∈ mapIds syn, ctxs1[i]? = ctxs2[i]?) :
    noProtoSet syn ctxs1 = noProtoSet syn ctxs2 := by
  unfold noProtoSet
  cases hm : mapGet syn.contexts "prototype" with
  | none => rfl
  | some pid =>
    rw [hlen]
    exact recursively_mark_no_prototype_congr syn hag _ _ _
      (by simpa [mapIds] using mapGet_index_mem hm)

/-! ### Characterizing the linking fold -/

theorem processEntries_length (syns : List SyntaxReference) (syn : SyntaxReference)
    (protoId : Option ContextId) (noProto : List Nat) :
    ∀ (entries : List (String × ContextId)) (ctxs : List Context),
      (processEntries syns syn protoId noProto entries ctxs).length = ctxs.length := by
  intro entries
  induction entries with
  | nil => intro ctxs; rfl
  | cons e rest ih =>
    intro ctxs
    cases e with
    | mk n cid =>
      simp only [processEntries]
      cases h : ctxs[cid.index]? with
      | none => simpa [h] using ih ctxs
      | some c => simp [h, ih, List.length_set]

theorem processEntries_getElem?_notMem (syns : List SyntaxReference)
    (syn : SyntaxReference) (protoId : Option ContextId) (noProto : List Nat) :
    ∀ (entries : List (String × ContextId)) (ctxs : List Context) (i : Nat),
      i ∉ entries.map (fun p => p.2.index) →
      (processEntries syns syn protoId noProto entries ctxs)[i]? = ctxs[i]? := by
  intro entries
  induction entries with
  | nil => intro ctxs i _; rfl
  | cons e rest ih =>
    intro ctxs i hi
    cases e with
    | mk n cid =>
      simp only [List.map_cons, List.mem_cons, not_or] at hi
      simp only [processEntries]
      cases h : ctxs[cid.index]? with
      | none => simpa [h] using ih ctxs i hi.2
      | some c =>
        simp only [h]
        rw [ih _ i hi.2, List.getElem?_set_ne (fun he => hi.1 he.symm)]

theorem processEntries_getElem?_mem (syns : List SyntaxReference)
    (syn : SyntaxReference) (protoId : Option ContextId) (noProto : List Nat) :
    ∀ (entries : List (String × ContextId)) (ctxs : List Context),
      (entries.map (fun p => p.2.index)).Nodup →
      ∀ p ∈ entries, p.2.index < ctxs.length →
      (processEntries syns syn protoId noProto entries ctxs)[p.2.index]? =
        (ctxs[p.2.index]?).map (transformCtx syns syn protoId noProto p.2.index) := by
  intro entries
  induction entries with
  | nil => intro ctxs _ p hp; simp at hp
  | cons e rest ih =>
    intro ctxs hnd p hp hplt
    cases e with
    | mk n cid =>
      simp only [List.map_cons, List.nodup_cons] at hnd
      rcases List.mem_cons.mp hp with heq | hrest
      · subst heq
        simp only [processEntries]
        cases h : ctxs[cid.index]? with
        | none =>
          have hlt' : cid.index < ctxs.length := by simpa using hplt
          exact absurd (List.getElem?_eq_none_iff.mp h) (Nat.not_le.mpr hlt')
        | some c =>
          simp only [h]
          rw [processEntries_getElem?_notMem syns syn protoId noProto rest _ _ hnd.1]
          simp [List.getElem?_set_self', h]
      · simp only [processEntries]
        cases h : ctxs[cid.index]? with
        | none => simpa [h] using ih ctxs hnd.2 p hrest hplt
        | some c =>
          simp only [h]
          have hne : cid.index ≠ p.2.index := by
            intro he
            exact hnd.1 (he ▸ List.mem_map_of_mem (fun q => q.2.index) hrest)
          rw [ih _ hnd.2 p hrest (by simpa [List.length_set] using hplt),
            List.getElem?_set_ne hne]

theorem processOne_length (syns : List SyntaxReference) (syn : SyntaxReference)
    (ctxs : List Context) : (processOne syns syn ctxs).length = ctxs.length :=
  processEntries_length syns syn _ _ syn.contexts ctxs

theorem processOne_getElem?_notMem (syns : List SyntaxReference)
    (syn : SyntaxReference) (ctxs : List Context) (i : Nat) (hi : i ∉ mapIds syn) :
    (processOne syns syn ctxs)[i]? = ctxs[i]? :=
  processEntries_getElem?_notMem syns syn _ _ syn.contexts ctxs i hi

theorem linkAll_length (all : List SyntaxReference) :
    ∀ (rest : List SyntaxReference) (ctxs : List Context),
      (linkAll all rest ctxs).length = ctxs.length := by
  intro rest
  induction rest with
  | nil => intro ctxs; rfl
  | cons syn rest ih =>
    intro ctxs
    simp [linkAll, ih, processOne_length]

theorem linkAll_getElem?_notMem (all : List SyntaxReference) :
    ∀ (rest : List SyntaxReference) (ctxs : List Context) (i : Nat),
      (∀ syn ∈ rest, i ∉ mapIds syn) →
      (linkAll all rest ctxs)[i]? = ctxs[i]? := by
  intro rest
  induction rest with
  | nil => intro ctxs i _; rfl
  | cons syn rest ih =>
    intro ctxs i hi
    simp only [linkAll]
    rw [ih _ i (fun s hs => hi s (List.mem_cons.mpr (Or.inr hs))),
      processOne_getElem?_notMem all syn ctxs i (hi syn (List.mem_cons_self syn rest))]

/-- Master characterization of the linking fold: with per-grammar blocks that
are valid, duplicate-free and pairwise disjoint, the final flat vector at a
position owned by grammar `syn` is the prototype-attachment-plus-linking
transform of the original context there, with the no-prototype set computed
from the original vector. -/
theorem linkAll_getElem?_mem (all : List SyntaxReference) :
    ∀ (rest : List SyntaxReference) (acc ctxs0 : List Context),
      acc.length = ctxs0.length →
      List.Pairwise List.Disjoint (rest.map mapIds) →
      (∀ syn ∈ rest, (mapIds syn).Nodup) →
      (∀ syn ∈ rest, ∀ i ∈ mapIds syn, i < ctxs0.length) →
      (∀ syn ∈ rest, ∀ i ∈ mapIds syn, acc[i]? = ctxs0[i]?) →
      ∀ syn ∈ rest, ∀ i ∈ mapIds syn,
        (linkAll all rest acc)[i]? =
          (ctxs0[i]?).map (transformCtx all syn (mapGet syn.contexts "prototype")
            (noProtoSet syn ctxs0) i) := by
  intro rest
  induction rest with
  | nil => intro acc ctxs0 _ _ _ _ _ syn hs; simp at hs
  | cons syn0 rest ih =>
    intro acc ctxs0 hlen hdisj hnd hlt hag syn hsyn i hi
    simp only [List.map_cons, List.pairwise_cons] at hdisj
    have hnp : noProtoSet syn0 acc = noProtoSet syn0 ctxs0 :=
      noProtoSet_congr syn0 hlen (hag syn0 (List.mem_cons_self syn0 rest))
    rcases List.mem_cons.mp hsyn with heq | hmem
    · subst heq
      simp only [linkAll]
      rw [linkAll_getElem?_notMem all rest _ i
        (fun s hs => fun hin => hdisj.1 (mapIds s) (List.mem_map_of_mem mapIds hs) hi hin)]
      rcases List.mem_map.mp hi with ⟨p, hp, hpi⟩
      subst hpi
      unfold processOne
      rw [processEntries_getElem?_mem all syn (mapGet syn.contexts "prototype")
        (noProtoSet syn acc) syn.contexts acc (hnd syn hsyn) p hp
        (by rw [hlen]; exact hlt syn hsyn _ (List.mem_map_of_mem _ hp)),
        hag syn hsyn _ (List.mem_map_of_mem _ hp), hnp]
    · simp only [linkAll]
      refine ih (processOne all syn0 acc) ctxs0 ?_ hdisj.2
        (fun s hs => hnd s (List.mem_cons.mpr (Or.inr hs)))
        (fun s hs => hlt s (List.mem_cons.mpr (Or.inr hs))) ?_ syn hmem i hi
      · rw [processOne_length, hlen]
      · intro s hs j hj
        rw [processOne_getElem?_notMem all syn0 acc j
          (fun hin => hdisj.1 (mapIds s) (List.mem_map_of_mem mapIds hs) hin hj),
          hag s (List.mem_cons.mpr (Or.inr hs)) j hj]

/-! ### Build-level corollaries -/

theorem build_syntaxes_eq (b : SyntaxSetBuilder) :
    (SyntaxSetBuilder.build b).syntaxes = (assignFrom 0 b.syntaxes).1 := rfl

theorem build_contexts_eq (b : SyntaxSetBuilder) :
    (SyntaxSetBuilder.build b).contexts =
      linkAll (assignFrom 0 b.syntaxes).1 (assignFrom 0 b.syntaxes).1
        (assignFrom 0 b.syntaxes).2 := rfl

theorem build_contexts_length (b : SyntaxSetBuilder) :
    (SyntaxSetBuilder.build b).contexts.length = totalCtxs b.syntaxes := by
  rw [build_contexts_eq, linkAll_length, assignFrom_snd_length]

theorem build_ids_flat (b : SyntaxSetBuilder) :
    (((SyntaxSetBuilder.build b).syntaxes).map mapIds).flatten
      = List.range' 0 (totalCtxs b.syntaxes) := by
  rw [build_syntaxes_eq]; exact assignFrom_ids_flat 0 b.syntaxes

theorem build_mapIds_nodup (b : SyntaxSetBuilder) :
    ∀ syn ∈ (SyntaxSetBuilder.build b).syntaxes, (mapIds syn).Nodup := by
  have h := build_ids_flat b
  have hnd : ((((SyntaxSetBuilder.build b).syntaxes).map mapIds).flatten).Nodup := by
    rw [h]; exact List.nodup_range' _ _
  intro syn hsyn
  exact (List.nodup_flatten.mp hnd).1 (mapIds syn) (List.mem_map_of_mem mapIds hsyn)

theorem build_mapIds_disjoint (b : SyntaxSetBuilder) :
    List.Pairwise List.Disjoint (((SyntaxSetBuilder.build b).syntaxes).map mapIds) := by
  have h := build_ids_flat b
  have hnd : ((((SyntaxSetBuilder.build b).syntaxes).map mapIds).flatten).Nodup := by
    rw [h]; exact List.nodup_range' _ _
  exact (List.nodup_flatten.mp hnd).2

theorem build_mapIds_lt (b : SyntaxSetBuilder) :
    ∀ syn ∈ (SyntaxSetBuilder.build b).syntaxes, ∀ i ∈ mapIds syn,
      i < totalCtxs b.syntaxes := by
  intro syn hsyn i hi
  have : i ∈ (((SyntaxSetBuilder.build b).syntaxes).map mapIds).flatten :=
    List.mem_flatten.mpr ⟨mapIds syn, List.mem_map_of_mem mapIds hsyn, hi⟩
  rw [build_ids_flat b] at this
  simpa using (List.mem_range'_1.mp this).2

theorem build_id_covered (b : SyntaxSetBuilder) {i : Nat}
    (hi : i < totalCtxs b.syntaxes) :
    ∃ syn ∈ (SyntaxSetBuilder.build b).syntaxes, i ∈ mapIds syn := by
  have : i ∈ (((SyntaxSetBuilder.build b).syntaxes).map mapIds).flatten := by
    rw [build_ids_flat b]
    exact List.mem_range'_1.mpr ⟨Nat.zero_le i, by simpa using hi⟩
  rcases List.mem_flatten.mp this with ⟨l, hl, hil⟩
  rcases List.mem_map.mp hl with ⟨syn, hsyn, rfl⟩
  exact ⟨syn, hsyn, hil⟩

/-- The flat vector of a built set, at a position owned by grammar `syn`, is
the transform (prototype attachment + linking) of the phase-1 context at that
position, with the no-prototype set computed over the phase-1 vector. -/
theorem build_contexts_getElem? (b : SyntaxSetBuilder) {syn : SyntaxReference}
    (hsyn : syn ∈ (SyntaxSetBuilder.build b).syntaxes) {i : Nat} (hi : i ∈ mapIds syn) :
    (SyntaxSetBuilder.build b).contexts[i]? =
      (((assignFrom 0 b.syntaxes).2)[i]?).map
        (transformCtx (assignFrom 0 b.syntaxes).1 syn (mapGet syn.contexts "prototype")
          (noProtoSet syn (assignFrom 0 b.syntaxes).2) i) := by
  rw [build_contexts_eq]
  refine linkAll_getElem?_mem (assignFrom 0 b.syntaxes).1 (assignFrom 0 b.syntaxes).1
    (assignFrom 0 b.syntaxes).2 (assignFrom 0 b.syntaxes).2 rfl
    ?_ ?_ ?_ (fun _ _ _ _ => rfl) syn ?_ i hi
  · exact build_mapIds_disjoint b
  · exact fun s hs => build_mapIds_nodup b s hs
  · intro s hs j hj
    rw [assignFrom_snd_length]
    exact build_mapIds_lt b s hs j hj
  · exact hsyn

/-! ### Reference positions and Direct-id validity -/

/-- Every `ContextReference` position of one pattern: `Include` references,
`Push`/`Set` operands, and the `with_prototype` slot — exactly the positions
`link_ref` is applied to. -/
def patternRefs : Pattern → List ContextReference
  | .Match mp =>
    (match mp.operation with
     | .Push refs | .Set refs => refs
     | .Pop | .None => []) ++ mp.with_prototype.toList
  | .Include r => [r]

/-- Every reference position of a context, in pattern order. -/
def ctxRefs (c : Context) : List ContextReference :=
  (c.patterns.map patternRefs).flatten

/-- Is a reference not a `Direct` handle? -/
def refNotDirect : ContextReference → Bool
  | .Direct _ => false
  | _ => true

/-- Does a `Direct` reference stay inside a table of `n` contexts?
(Non-`Direct` references trivially do.) -/
def refDirectOk (n : Nat) : ContextReference → Bool
  | .Direct id => decide (id.index < n)
  | _ => true

/-- All `Direct` references of a context stay inside a table of `n`
contexts. -/
def ctxDirectOk (n : Nat) (c : Context) : Bool := (ctxRefs c).all (refDirectOk n)

theorem refDirectOk_of_notDirect {n : Nat} {r : ContextReference}
    (h : refNotDirect r = true) : refDirectOk n r = true := by
  cases r <;> simp_all [refNotDirect, refDirectOk]

/-- `link_context` rewrites exactly the reference positions of a context, each
through `link_ref`. -/
theorem ctxRefs_link_context (syn : SyntaxReference) (syns : List SyntaxReference)
    (c : Context) :
    ctxRefs (link_context syn syns c) = (ctxRefs c).map (link_ref syn syns) := by
  unfold ctxRefs link_context
  simp only [List.map_map, List.map_flatten]
  congr 1
  apply List.map_congr_left
  intro p _
  cases p with
  | Include r => simp [patternRefs, Function.comp]
  | Match mp =>
    simp only [Function.comp, patternRefs, link_match_pat, List.map_append]
    congr 1
    · cases mp.operation <;> simp
    · cases mp.with_prototype <;> simp

theorem applyProto_patterns (protoId : Option ContextId) (noProto : List Nat)
    (i : Nat) (c : Context) : (applyProto protoId noProto i c).patterns = c.patterns := by
  cases protoId with
  | none => rfl
  | some pid =>
    by_cases h1 : c.meta_include_prototype = true
    · by_cases h2 : i ∈ noProto
      · simp [applyProto, h1, h2]
      · simp [applyProto, h1, h2]
    · simp [applyProto, h1]

theorem ctxRefs_applyProto (protoId : Option ContextId) (noProto : List Nat)
    (i : Nat) (c : Context) : ctxRefs (applyProto protoId noProto i c) = ctxRefs c := by
  unfold ctxRefs
  rw [applyProto_patterns]

theorem resolveRef_lt {syn : SyntaxReference} {syns : List SyntaxReference}
    {r : ContextReference} {id : ContextId} {n : Nat}
    (hsyn : ∀ i ∈ mapIds syn, i < n)
    (hall : ∀ s ∈ syns, ∀ i ∈ mapIds s, i < n)
    (h : resolveRef syn syns r = some id) : id.index < n := by
  cases r with
  | Named s =>
    simp only [resolveRef] at h
    split at h <;> exact hsyn _ (mapGet_index_mem h)
  | Inline s =>
    simp only [resolveRef] at h
    split at h <;> exact hsyn _ (mapGet_index_mem h)
  | ByScope sc sub =>
    simp only [resolveRef] at h
    rcases Option.bind_eq_some.mp h with ⟨s, hfind, hget⟩
    exact hall s (List.mem_of_find?_eq_some hfind) _ (mapGet_index_mem hget)
  | File nm sub =>
    simp only [resolveRef] at h
    rcases Option.bind_eq_some.mp h with ⟨s, hfind, hget⟩
    exact hall s (List.mem_of_find?_eq_some hfind) _ (mapGet_index_mem hget)
  | Direct i => simp [resolveRef] at h

theorem link_ref_ok {syn : SyntaxReference} {syns : List SyntaxReference}
    {r : ContextReference} {n : Nat}
    (hsyn : ∀ i ∈ mapIds syn, i < n)
    (hall : ∀ s ∈ syns, ∀ i ∈ mapIds s, i < n)
    (hr : refDirectOk n r = true) : refDirectOk n (link_ref syn syns r) = true := by
  unfold link_ref
  cases h : resolveRef syn syns r with
  | none => exact hr
  | some id => simpa [refDirectOk] using resolveRef_lt hsyn hall h

theorem transformCtx_ok {syns : List SyntaxReference} {syn : SyntaxReference}
    {protoId : Option ContextId} {noProto : List Nat} {i n : Nat} {c : Context}
    (hsyn : ∀ i ∈ mapIds syn, i < n)
    (hall : ∀ s ∈ syns, ∀ i ∈ mapIds s, i < n)
    (hc : ctxDirectOk n c = true) :
    ctxDirectOk n (transformCtx syns syn protoId noProto i c) = true := by
  unfold transformCtx ctxDirectOk
  rw [ctxRefs_link_context, ctxRefs_applyProto, List.all_eq_true]
  intro r hr
  rcases List.mem_map.mp hr with ⟨r0, hr0, rfl⟩
  exact link_ref_ok hsyn hall (List.all_eq_true.mp hc r0 hr0)

/-- Every context of the phase-1 flat vector is one of the input definitions'
contexts. -/
theorem assignFrom_snd_mem {start : Nat} {defs : List SyntaxDefinition} {c : Context}
    (h : c ∈ (assignFrom start defs).2) :
    ∃ d ∈ defs, ∃ nm, (nm, c) ∈ d.contexts := by
  induction defs generalizing start with
  | nil => simp [assignFrom] at h
  | cons d rest ih =>
    simp only [assignFrom, List.mem_append] at h
    rcases h with h | h
    · rw [buildSyn_snd] at h
      rcases List.mem_map.mp h with ⟨p, hp, rfl⟩
      exact ⟨d, List.mem_cons_self d rest, p.1,
        (sortContexts_perm d.contexts).mem_iff.mp (by simpa using hp)⟩
    · rcases ih h with ⟨d', hd', nm, hnm⟩
      exact ⟨d', List.mem_cons.mpr (Or.inr hd'), nm, hnm⟩

/-- Core validity of `build()`: the context table has exactly the input's
total number of contexts, every id in every grammar's map points into it, and
every `Direct` reference in every stored context points into it — provided
the input's own `Direct` references (if any) already did. -/
theorem build_valid (b : SyntaxSetBuilder)
    (hok : ∀ d ∈ b.syntaxes, ∀ p ∈ d.contexts,
      ctxDirectOk (totalCtxs b.syntaxes) p.2 = true) :
    (SyntaxSetBuilder.build b).contexts.length = totalCtxs b.syntaxes ∧
    (∀ syn ∈ (SyntaxSetBuilder.build b).syntaxes, ∀ p ∈ syn.contexts,
      p.2.index < (SyntaxSetBuilder.build b).contexts.length) ∧
    (∀ c ∈ (SyntaxSetBuilder.build b).contexts,
      ctxDirectOk (SyntaxSetBuilder.build b).contexts.length c = true) := by
  have hlen := build_contexts_length b
  refine ⟨hlen, ?_, ?_⟩
  · intro syn hsyn p hp
    rw [hlen]
    exact build_mapIds_lt b syn hsyn _ (List.mem_map_of_mem _ hp)
  · intro c hc
    rw [hlen]
    rcases List.mem_iff_getElem?.mp hc with ⟨i, hi⟩
    have hilt : i < (SyntaxSetBuilder.build b).contexts.length := by
      rcases List.getElem?_eq_some.mp hi with ⟨h, _⟩
      exact h
    rw [hlen] at hilt
    rcases build_id_covered b hilt with ⟨syn, hsyn, himem⟩
    rw [build_contexts_getElem? b hsyn himem] at hi
    rcases Option.map_eq_some'.mp hi with ⟨c0, hc0, rfl⟩
    have hc0mem : c0 ∈ (assignFrom 0 b.syntaxes).2 := by
      rcases List.getElem?_eq_some.mp hc0 with ⟨h, he⟩
      exact he ▸ List.getElem_mem h
    rcases assignFrom_snd_mem hc0mem with ⟨d, hd, nm, hnm⟩
    refine transformCtx_ok ?_ ?_ (hok d hd (nm, c0) hnm)
    · exact fun j hj => build_mapIds_lt b syn hsyn j hj
    · intro s hs j hj
      exact build_mapIds_lt b s hs j hj

/-! ### Characterizing `into_builder` -/

/-- Lookup in the id-keyed context map of `into_builder`. -/
def cmapFind (cmap : List (Nat × Context)) (k : Nat) : Option Context :=
  (cmap.find? (fun p => p.1 = k)).map (fun p => p.2)

theorem removeCtx_fst (cmap : List (Nat × Context)) (k : Nat) :
    (removeCtx cmap k).1 = cmapFind cmap k := by
  unfold removeCtx cmapFind
  cases h : cmap.find? (fun p => p.1 = k) <;> simp [h]

theorem find?_filter_ne (cmap : List (Nat × Context)) (k j : Nat) (hne : j ≠ k) :
    (cmap.filter (fun q => !(q.1 = k : Bool))).find? (fun p => p.1 = j)
      = cmap.find? (fun p => p.1 = j) := by
  induction cmap with
  | nil => rfl
  | cons a rest ih =>
    by_cases hk : a.1 = k
    · have hj : ¬(a.1 = j) := fun h => hne (h.symm.trans hk)
      have hfk : (!(a.1 = k : Bool)) = false := by simpa using hk
      rw [List.filter_cons, hfk]
      simp only [Bool.false_eq_true, if_false, ite_false]
      rw [ih, List.find?_cons_of_neg _ (by simpa using hj)]
    · have hfk : (!(a.1 = k : Bool)) = true := by simpa using hk
      rw [List.filter_cons, hfk]
      simp only [if_true, ite_true]
      by_cases hj : a.1 = j
      · rw [List.find?_cons_of_pos _ (by simpa using hj),
          List.find?_cons_of_pos _ (by simpa using hj)]
      · rw [List.find?_cons_of_neg _ (by simpa using hj),
          List.find?_cons_of_neg _ (by simpa using hj), ih]

theorem cmapFind_removeCtx_ne (cmap : List (Nat × Context)) (k j : Nat)
    (hne : j ≠ k) : cmapFind (removeCtx cmap k).2 j = cmapFind cmap j := by
  unfold removeCtx
  cases h : cmap.find? (fun p => p.1 = k) with
  | none => rfl
  | some p => simp only [cmapFind, find?_filter_ne cmap k j hne]

theorem rebuildCtxList_snd_find (k : Nat) :
    ∀ (entries : List (String × ContextId)) (cmap : List (Nat × Context)),
      k ∉ entries.map (fun p => p.2.index) →
      cmapFind (rebuildCtxList entries cmap).2 k = cmapFind cmap k := by
  intro entries
  induction entries with
  | nil => intro cmap _; rfl
  | cons e rest ih =>
    intro cmap hk
    cases e with
    | mk n cid =>
      simp only [List.map_cons, List.mem_cons, not_or] at hk
      simp only [rebuildCtxList]
      cases hrc : removeCtx cmap cid.index with
      | mk oc cmap' =>
        have hpres : cmapFind cmap' k = cmapFind cmap k := by
          have h2 := cmapFind_removeCtx_ne cmap cid.index k hk.1
          rw [hrc] at h2
          exact h2
        cases oc with
        | some c =>
          simp only []
          rw [ih cmap' hk.2, hpres]
        | none =>
          simp only []
          rw [ih cmap' hk.2, hpres]

theorem rebuildCtxList_fst (g : Nat → Context) :
    ∀ (entries : List (String × ContextId)) (cmap : List (Nat × Context)),
      (entries.map (fun p => p.2.index)).Nodup →
      (∀ p ∈ entries, cmapFind cmap p.2.index = some (g p.2.index)) →
      (rebuildCtxList entries cmap).1 = entries.map (fun p => (p.1, g p.2.index)) := by
  intro entries
  induction entries with
  | nil => intro cmap _ _; rfl
  | cons e rest ih =>
    intro cmap hnd hfind
    cases e with
    | mk n cid =>
      simp only [List.map_cons, List.nodup_cons] at hnd
      have h1 : (removeCtx cmap cid.index).1 = some (g cid.index) := by
        rw [removeCtx_fst]
        exact hfind (n, cid) (List.mem_cons_self _ _)
      simp only [rebuildCtxList]
      cases hrc : removeCtx cmap cid.index with
      | mk oc cmap' =>
        rw [hrc] at h1
        simp only at h1
        subst h1
        simp only []
        have hfind' : ∀ p ∈ rest, cmapFind cmap' p.2.index = some (g p.2.index) := by
          intro p hp
          have hne : p.2.index ≠ cid.index := by
            intro he
            exact hnd.1 (he ▸ List.mem_map_of_mem (fun q => q.2.index) hp)
          have h2 := cmapFind_removeCtx_ne cmap cid.index p.2.index hne
          rw [hrc] at h2
          simp only at h2
          rw [h2]
          exact hfind p (List.mem_cons.mpr (Or.inr hp))
        rw [ih cmap' hnd.2 hfind']
        rfl

theorem rebuildDefs_fst (g : Nat → Context) :
    ∀ (syns : List SyntaxReference) (cmap : List (Nat × Context)),
      ((syns.map mapIds).flatten).Nodup →
      (∀ syn ∈ syns, ∀ p ∈ syn.contexts, cmapFind cmap p.2.index = some (g p.2.index)) →
      (rebuildDefs syns cmap).1 = syns.map (fun syn =>
        { name := syn.name
          file_extensions := syn.file_extensions
          scope := syn.scope
          first_line_match := syn.first_line_match
          hidden := syn.hidden
          vars := syn.vars
          contexts := syn.contexts.map (fun p => (p.1, g p.2.index)) }) := by
  intro syns
  induction syns with
  | nil => intro cmap _ _; rfl
  | cons syn0 rest ih =>
    intro cmap hnd hfind
    simp only [List.map_cons, List.flatten_cons, List.nodup_append] at hnd
    have h1 : (rebuildCtxList syn0.contexts cmap).1
        = syn0.contexts.map (fun p => (p.1, g p.2.index)) :=
      rebuildCtxList_fst g syn0.contexts cmap hnd.1
        (fun p hp => hfind syn0 (List.mem_cons_self _ _) p hp)
    simp only [rebuildDefs]
    cases hrc : rebuildCtxList syn0.contexts cmap with
    | mk ctxs cmap1 =>
      rw [hrc] at h1
      simp only at h1
      subst h1
      simp only []
      have hfind1 : ∀ syn ∈ rest, ∀ p ∈ syn.contexts,
          cmapFind cmap1 p.2.index = some (g p.2.index) := by
        intro syn hsyn p hp
        have hnot : p.2.index ∉ syn0.contexts.map (fun q => q.2.index) := by
          intro hin
          refine hnd.2.2 hin ?_
          exact List.mem_flatten.mpr ⟨mapIds syn, List.mem_map_of_mem mapIds hsyn,
            List.mem_map_of_mem _ hp⟩
        have h2 := rebuildCtxList_snd_find p.2.index syn0.contexts cmap hnot
        rw [hrc] at h2
        simp only at h2
        rw [h2]
        exact hfind syn (List.mem_cons.mpr (Or.inr hsyn)) p hp
      rw [ih cmap1 hnd.2.1 hfind1]
      rfl

theorem cmapFind_idxPairs : ∀ (l : List Context) (s j : Nat),
    cmapFind (idxPairs s l) (s + j) = l[j]? := by
  intro l
  induction l with
  | nil => intro s j; rfl
  | cons c rest ih =>
    intro s j
    cases j with
    | zero => simp [idxPairs, cmapFind, List.find?_cons]
    | succ j =>
      have hne : ¬(s = s + (j + 1)) := by omega
      simp only [idxPairs, cmapFind, List.find?_cons]
      have : (decide (s = s + (j + 1))) = false := by simpa using hne
      rw [this]
      have := ih (s + 1) j
      rw [show s + 1 + j = s + (j + 1) by omega] at this
      simpa [cmapFind] using this

/-- Applying `into_builder` to a built set rehydrates every grammar with
exactly its own contexts, keyed by name, taken from the flat vector at its
recorded ids. -/
theorem into_builder_build_syntaxes (b : SyntaxSetBuilder) :
    (SyntaxSet.into_builder (SyntaxSetBuilder.build b)).syntaxes
      = (SyntaxSetBuilder.build b).syntaxes.map (fun syn =>
        { name := syn.name
          file_extensions := syn.file_extensions
          scope := syn.scope
          first_line_match := syn.first_line_match
          hidden := syn.hidden
          vars := syn.vars
          contexts := syn.contexts.map (fun p =>
            (p.1, (SyntaxSetBuilder.build b).contexts.getD p.2.index emptyContext)) }) := by
  have hnd : ((((SyntaxSetBuilder.build b).syntaxes).map mapIds).flatten).Nodup := by
    rw [build_ids_flat]; exact List.nodup_range' _ _
  refine rebuildDefs_fst
    (fun i => (SyntaxSetBuilder.build b).contexts.getD i emptyContext)
    (SyntaxSetBuilder.build b).syntaxes (idxPairs 0 (SyntaxSetBuilder.build b).contexts)
    hnd ?_
  intro syn hsyn p hp
  have hlt : p.2.index < (SyntaxSetBuilder.build b).contexts.length := by
    rw [build_contexts_length]
    exact build_mapIds_lt b syn hsyn _ (List.mem_map_of_mem _ hp)
  have hcf : cmapFind (idxPairs 0 (SyntaxSetBuilder.build b).contexts) p.2.index
      = (SyntaxSetBuilder.build b).contexts[p.2.index]? := by
    have := cmapFind_idxPairs (SyntaxSetBuilder.build b).contexts 0 p.2.index
    simpa using this
  rw [hcf]
  simp only [List.getD_eq_getElem?_getD]
  cases h : (SyntaxSetBuilder.build b).contexts[p.2.index]? with
  | none => exact absurd (List.getElem?_eq_none_iff.mp h) (Nat.not_le.mpr hlt)
  | some c => simp [h]

theorem build_sum_ctx_lengths (b : SyntaxSetBuilder) :
    (((SyntaxSetBuilder.build b).syntaxes).map (fun syn => syn.contexts.length)).sum
      = totalCtxs b.syntaxes := by
  have h1 : ((SyntaxSetBuilder.build b).syntaxes).map (fun syn => syn.contexts.length)
      = ((((SyntaxSetBuilder.build b).syntaxes).map mapIds).map List.length) := by
    rw [List.map_map]
    apply List.map_congr_left
    intro syn _
    simp [mapIds]
  rw [h1, ← List.length_flatten, build_ids_flat, List.length_range']

theorem totalCtxs_into_builder_build (b : SyntaxSetBuilder) :
    totalCtxs (SyntaxSet.into_builder (SyntaxSetBuilder.build b)).syntaxes
      = totalCtxs b.syntaxes := by
  rw [into_builder_build_syntaxes]
  unfold totalCtxs
  rw [List.map_map]
  have h1 : ((fun d => d.contexts.length) ∘ (fun (syn : SyntaxReference) =>
      ({ name := syn.name
         file_extensions := syn.file_extensions
         scope := syn.scope
         first_line_match := syn.first_line_match
         hidden := syn.hidden
         vars := syn.vars
         contexts := syn.contexts.map (fun p =>
           (p.1, (SyntaxSetBuilder.build b).contexts.getD p.2.index emptyContext)) }
        : SyntaxDefinition)))
      = fun (syn : SyntaxReference) => syn.contexts.length := by
    funext syn
    simp [Function.comp]
  rw [h1]
  exact build_sum_ctx_lengths b

/-! ### Claim C1 -/

theorem isSome_getElem?_iff {α : Type} (l : List α) (i : Nat) :
    l[i]?.isSome = true ↔ i < l.length := by
  rw [Option.isSome_iff_exists]
  constructor
  · rintro ⟨a, ha⟩
    rcases List.getElem?_eq_some.mp ha with ⟨h, _⟩
    exact h
  · intro h
    exact ⟨l[i], List.getElem?_eq_some.mpr ⟨h, rfl⟩⟩

/-- The validity invariant of the claim: `get_context` succeeds on every id
stored in a grammar's context map and on every `Direct(id)` occurring in any
stored context's patterns. -/
def validSet (S : SyntaxSet) : Prop :=
  (∀ syn ∈ S.syntaxes, ∀ p ∈ syn.contexts, (S.get_context p.2).isSome = true) ∧
  (∀ c ∈ S.contexts, ∀ r ∈ ctxRefs c, ∀ id, r = ContextReference.Direct id →
    (S.get_context id).isSome = true)

theorem build_validSet (b : SyntaxSetBuilder)
    (hok : ∀ d ∈ b.syntaxes, ∀ p ∈ d.contexts,
      ctxDirectOk (totalCtxs b.syntaxes) p.2 = true) :
    validSet (SyntaxSetBuilder.build b) := by
  rcases build_valid b hok with ⟨hlen, hmap, hdir⟩
  constructor
  · intro syn hsyn p hp
    rw [SyntaxSet.get_context, isSome_getElem?_iff]
    exact hmap syn hsyn p hp
  · intro c hc r hr id hid
    have h1 := List.all_eq_true.mp (hdir c hc) r hr
    subst hid
    rw [SyntaxSet.get_context, isSome_getElem?_iff]
    simpa [refDirectOk] using h1

theorem into_builder_build_ok (b : SyntaxSetBuilder)
    (hok : ∀ d ∈ b.syntaxes, ∀ p ∈ d.contexts,
      ctxDirectOk (totalCtxs b.syntaxes) p.2 = true) :
    ∀ d ∈ (SyntaxSet.into_builder (SyntaxSetBuilder.build b)).syntaxes,
      ∀ p ∈ d.contexts,
      ctxDirectOk
        (totalCtxs (SyntaxSet.into_builder (SyntaxSetBuilder.build b)).syntaxes)
        p.2 = true := by
  intro d hd p hp
  rw [totalCtxs_into_builder_build]
  rw [into_builder_build_syntaxes] at hd
  rcases List.mem_map.mp hd with ⟨syn, hsyn, rfl⟩
  simp only [] at hp
  rcases List.mem_map.mp hp with ⟨q, hq, rfl⟩
  have hlt : q.2.index < (SyntaxSetBuilder.build b).contexts.length := by
    rw [build_contexts_length]
    exact build_mapIds_lt b syn hsyn _ (List.mem_map_of_mem _ hq)
  have hmem : (SyntaxSetBuilder.build b).contexts.getD q.2.index emptyContext
      ∈ (SyntaxSetBuilder.build b).contexts := by
    rw [List.getD_eq_getElem?_getD]
    cases h : (SyntaxSetBuilder.build b).contexts[q.2.index]? with
    | none => exact absurd (List.getElem?_eq_none_iff.mp h) (Nat.not_le.mpr hlt)
    | some c =>
      rcases List.getElem?_eq_some.mp h with ⟨hi, he⟩
      simpa [← he] using List.getElem_mem hi
  have h2 := (build_valid b hok).2.2 _ hmem
  rw [build_contexts_length] at h2
  exact h2

/-- C1: in every grammar set produced by `build()` — including one produced
by `build()` after `into_builder()` of a previous build — every `ContextId`
stored in any `SyntaxReference`'s contexts map and every `Direct(id)`
occurring in any pattern of any context indexes a valid element of the flat
`contexts` vector, so `get_context` never indexes out of bounds on such an
id.  The hypothesis states that the loader-produced input contains no
`Direct` references (`Direct` is post-link only, spec §3). -/
theorem claim_C1 (b : SyntaxSetBuilder)
    (hfree : ∀ d ∈ b.syntaxes, ∀ p ∈ d.contexts, ∀ r ∈ ctxRefs p.2,
      refNotDirect r = true) :
    validSet (SyntaxSetBuilder.build b) ∧
      validSet (SyntaxSetBuilder.build
        (SyntaxSet.into_builder (SyntaxSetBuilder.build b))) := by
  have hok : ∀ d ∈ b.syntaxes, ∀ p ∈ d.contexts,
      ctxDirectOk (totalCtxs b.syntaxes) p.2 = true := by
    intro d hd p hp
    rw [ctxDirectOk, List.all_eq_true]
    intro r hr
    exact refDirectOk_of_notDirect (hfree d hd p hp r hr)
  exact ⟨build_validSet b hok, build_validSet _ (into_builder_build_ok b hok)⟩

/-! ### Claim C2 -/

theorem link_context_prototype (syn : SyntaxReference) (syns : List SyntaxReference)
    (c : Context) : (link_context syn syns c).prototype = c.prototype := rfl

theorem link_context_meta (syn : SyntaxReference) (syns : List SyntaxReference)
    (c : Context) :
    (link_context syn syns c).meta_include_prototype = c.meta_include_prototype := rfl

theorem transformCtx_prototype (syns : List SyntaxReference) (syn : SyntaxReference)
    (pid : ContextId) (noProto : List Nat) (i : Nat) (c : Context) :
    (transformCtx syns syn (some pid) noProto i c).prototype =
      if c.meta_include_prototype = true ∧ i ∉ noProto then some pid
      else c.prototype := by
  unfold transformCtx
  rw [link_context_prototype]
  unfold applyProto
  by_cases h1 : c.meta_include_prototype = true
  · by_cases h2 : i ∈ noProto
    · simp [h1, h2]
    · simp [h1, h2]
  · simp [h1]

/-- C2: for every grammar whose context map contains `"prototype"`, a context
of that grammar ends up with its `prototype` field set to the prototype's id
if and only if it has `meta_include_prototype` and its id is not in the
transitive closure computed by `recursively_mark_no_prototype` starting at
the prototype context — the walk that follows, within the current grammar
only, `Push`/`Set` targets that are `Named` or `Inline` references resolvable
in the grammar's own map and `Include(Named)` references, and traverses
neither `Include(Inline)` nor `ByScope`/`File` references, terminating on
cycles.  The hypothesis says the loader-produced inputs carry no pre-set
`prototype` fields (they are filled during linking only, spec §3). -/
theorem claim_C2 (b : SyntaxSetBuilder)
    (hproto : ∀ d ∈ b.syntaxes, ∀ p ∈ d.contexts, p.2.prototype = none)
    (syn : SyntaxReference) (hsyn : syn ∈ (SyntaxSetBuilder.build b).syntaxes)
    (pid : ContextId) (hpid : mapGet syn.contexts "prototype" = some pid)
    (p : String × ContextId) (hp : p ∈ syn.contexts)
    (c0 : Context) (hc0 : ((assignFrom 0 b.syntaxes).2)[p.2.index]? = some c0) :
    ∃ c, (SyntaxSetBuilder.build b).contexts[p.2.index]? = some c ∧
      (c.prototype = some pid ↔
        (c0.meta_include_prototype = true ∧
          p.2.index ∉ recursively_mark_no_prototype syn (assignFrom 0 b.syntaxes).2
            ((assignFrom 0 b.syntaxes).2.length + 1) pid.index [])) := by
  have hi : p.2.index ∈ mapIds syn := List.mem_map_of_mem _ hp
  have hbc := build_contexts_getElem? b hsyn hi
  rw [hc0, Option.map_some'] at hbc
  refine ⟨_, hbc, ?_⟩
  have hnps : noProtoSet syn (assignFrom 0 b.syntaxes).2
      = recursively_mark_no_prototype syn (assignFrom 0 b.syntaxes).2
          ((assignFrom 0 b.syntaxes).2.length + 1) pid.index [] := by
    unfold noProtoSet
    rw [hpid]
  have hc0proto : c0.prototype = none := by
    have hmem : c0 ∈ (assignFrom 0 b.syntaxes).2 := by
      rcases List.getElem?_eq_some.mp hc0 with ⟨h, he⟩
      exact he ▸ List.getElem_mem h
    rcases assignFrom_snd_mem hmem with ⟨d, hd, nm, hnm⟩
    exact hproto d hd (nm, c0) hnm
  rw [hpid, transformCtx_prototype, hnps, hc0proto]
  by_cases hA : (c0.meta_include_prototype = true ∧
      p.2.index ∉ recursively_mark_no_prototype syn (assignFrom 0 b.syntaxes).2
        ((assignFrom 0 b.syntaxes).2.length + 1) pid.index [])
  · simp [hA]
  · simp [hA]

/-! ### Concrete grammars for the witnesses and counterexamples -/

/-- A match pattern whose `Push` operand names the `helper` context. -/
def exProtoPattern : MatchPattern :=
  { has_captures := false
    regex_str := "p"
    scope := []
    operation := .Push [.Named "helper"]
    with_prototype := none }

/-- The `prototype` context of the example grammar: it pushes `helper`. -/
def exProtoCtx : Context := { emptyContext with patterns := [.Match exProtoPattern] }

/-- Example grammar `P`: contexts `main`, `prototype` (pushing `helper`) and
`helper`. -/
def exDefP : SyntaxDefinition :=
  { name := "P"
    file_extensions := ["p"]
    scope := "source.p"
    first_line_match := none
    hidden := false
    vars := []
    contexts := [("main", emptyContext), ("prototype", exProtoCtx),
      ("helper", emptyContext)] }

/-- The builder holding only the example grammar `P`. -/
def exBuilder : SyntaxSetBuilder := { syntaxes := [exDefP], path_syntaxes := [] }

/-- The linked form of `P` produced by `build`: contexts sorted by name get
ids `helper ↦ 0`, `main ↦ 1`, `prototype ↦ 2`. -/
def exSynP : SyntaxReference :=
  { name := "P"
    file_extensions := ["p"]
    scope := "source.p"
    first_line_match := none
    hidden := false
    vars := []
    contexts := [("helper", ⟨0⟩), ("main", ⟨1⟩), ("prototype", ⟨2⟩)] }

/-- Witness for C1 at the example grammar. -/
theorem claim_C1_witness :
    validSet (SyntaxSetBuilder.build exBuilder) ∧
      validSet (SyntaxSetBuilder.build
        (SyntaxSet.into_builder (SyntaxSetBuilder.build exBuilder))) :=
  claim_C1 exBuilder (by decide)

/-- Witness for C2 at the example grammar: the `main` context (id 1) of `P`
receives the prototype id 2 exactly because it is outside the walk's set. -/
theorem claim_C2_witness :
    ∃ c, (SyntaxSetBuilder.build exBuilder).contexts[(1 : Nat)]? = some c ∧
      (c.prototype = some ⟨2⟩ ↔
        (emptyContext.meta_include_prototype = true ∧
          (1 : Nat) ∉ recursively_mark_no_prototype exSynP
            (assignFrom 0 exBuilder.syntaxes).2
            ((assignFrom 0 exBuilder.syntaxes).2.length + 1) 2 [])) := by
  have h := claim_C2 exBuilder (by decide) exSynP (by decide) ⟨2⟩ (by decide)
    ("main", ⟨1⟩) (by decide) emptyContext (by decide)
  exact h

/-! ### Claim C3 -/

/-- Two definitions are "the same grammar": identical fields, with the
context map equal as a map — the association lists are permutations of each
other, as two iterations of the same `HashMap` would be. -/
def defRel (d₁ d₂ : SyntaxDefinition) : Prop :=
  d₁.name = d₂.name ∧ d₁.file_extensions = d₂.file_extensions ∧
  d₁.scope = d₂.scope ∧ d₁.first_line_match = d₂.first_line_match ∧
  d₁.hidden = d₂.hidden ∧ d₁.vars = d₂.vars ∧ d₁.contexts.Perm d₂.contexts

theorem buildSyn_congr (start : Nat) {d₁ d₂ : SyntaxDefinition}
    (hrel : defRel d₁ d₂) (hnd : (d₁.contexts.map Prod.fst).Nodup) :
    buildSyn start d₁ = buildSyn start d₂ := by
  rcases hrel with ⟨hn, hfe, hsc, hflm, hh, hv, hperm⟩
  have hs : sortContexts d₁.contexts = sortContexts d₂.contexts :=
    sortContexts_eq_of_perm hperm hnd
  unfold buildSyn
  rw [hs, hn, hfe, hsc, hflm, hh, hv]

theorem assignFrom_congr : ∀ {defs₁ defs₂ : List SyntaxDefinition} (start : Nat),
    List.Forall₂ defRel defs₁ defs₂ →
    (∀ d ∈ defs₁, (d.contexts.map Prod.fst).Nodup) →
    assignFrom start defs₁ = assignFrom start defs₂ := by
  intro defs₁ defs₂ start hrel hnd
  induction hrel generalizing start with
  | nil => rfl
  | cons hd htl ih =>
    rename_i d₁ d₂ t₁ t₂
    have h1 : buildSyn start d₁ = buildSyn start d₂ :=
      buildSyn_congr start hd (hnd d₁ (List.mem_cons_self _ _))
    simp only [assignFrom, h1]
    rw [ih _ (fun d hdm => hnd d (List.mem_cons.mpr (Or.inr hdm)))]

/-- C3: the flat contexts vector is ordered deterministically.  For each
definition, in insertion order, its `(name, context)` pairs are sorted by
name (byte-lexicographically) and pushed in that order, the assigned
`ContextId` of each being its push position; consequently building the same
sequence of definitions — the same grammars in the same order, regardless of
the iteration order of each grammar's context map — always yields the same
context order and context-id assignment (indeed the same `SyntaxSet`). -/
theorem claim_C3 (b₁ b₂ : SyntaxSetBuilder)
    (hps : b₁.path_syntaxes = b₂.path_syntaxes)
    (hrel : List.Forall₂ defRel b₁.syntaxes b₂.syntaxes)
    (hnd : ∀ d ∈ b₁.syntaxes, (d.contexts.map Prod.fst).Nodup) :
    SyntaxSetBuilder.build b₁ = SyntaxSetBuilder.build b₂ ∧
    (∀ k sd, b₁.syntaxes[k]? = some sd →
      ((SyntaxSetBuilder.build b₁).syntaxes[k]?).map (fun syn => syn.contexts)
        = some (withIdsFrom (totalCtxs (b₁.syntaxes.take k))
            (sortContexts sd.contexts))) ∧
    (∀ k sd, b₁.syntaxes[k]? = some sd → ∀ j, j < sd.contexts.length →
      ((assignFrom 0 b₁.syntaxes).2)[totalCtxs (b₁.syntaxes.take k) + j]?
        = ((sortContexts sd.contexts)[j]?).map Prod.snd) := by
  refine ⟨?_, ?_, ?_⟩
  · have ha : assignFrom 0 b₁.syntaxes = assignFrom 0 b₂.syntaxes :=
      assignFrom_congr 0 hrel hnd
    unfold SyntaxSetBuilder.build
    rw [ha, hps]
  · intro k sd hk
    rw [build_syntaxes_eq, assignFrom_fst_getElem?, hk]
    simp only [Option.map_some']
    rw [buildSyn_contexts]
    simp
  · intro k sd hk j hj
    rcases assignFrom_decomp 0 b₁.syntaxes k sd hk with ⟨pre, post, hdec, hlen⟩
    rw [hdec]
    have hjblock : j < ((sortContexts sd.contexts).map Prod.snd).length := by
      simpa [sortContexts_length] using hj
    rw [List.getElem?_append_left
      (by simp only [List.length_append]; omega)]
    rw [List.getElem?_append_right (by omega)]
    rw [show totalCtxs (b₁.syntaxes.take k) + j - pre.length = j by omega]
    rw [List.getElem?_map]

/-- The example grammar with its context map listed in a different iteration
order (the same `HashMap`). -/
def exDefPperm : SyntaxDefinition :=
  { name := "P"
    file_extensions := ["p"]
    scope := "source.p"
    first_line_match := none
    hidden := false
    vars := []
    contexts := [("helper", emptyContext), ("prototype", exProtoCtx),
      ("main", emptyContext)] }

/-- The permuted-order builder. -/
def exBuilderPerm : SyntaxSetBuilder :=
  { syntaxes := [exDefPperm], path_syntaxes := [] }

/-- Witness for C3 at the example grammar and a permutation of its context
map. -/
theorem claim_C3_witness :
    SyntaxSetBuilder.build exBuilder = SyntaxSetBuilder.build exBuilderPerm ∧
    (∀ k sd, exBuilder.syntaxes[k]? = some sd →
      ((SyntaxSetBuilder.build exBuilder).syntaxes[k]?).map (fun syn => syn.contexts)
        = some (withIdsFrom (totalCtxs (exBuilder.syntaxes.take k))
            (sortContexts sd.contexts))) ∧
    (∀ k sd, exBuilder.syntaxes[k]? = some sd → ∀ j, j < sd.contexts.length →
      ((assignFrom 0 exBuilder.syntaxes).2)[totalCtxs (exBuilder.syntaxes.take k) + j]?
        = ((sortContexts sd.contexts)[j]?).map Prod.snd) :=
  claim_C3 exBuilder exBuilderPerm rfl
    (List.Forall₂.cons ⟨rfl, rfl, rfl, rfl, rfl, rfl, by decide⟩ List.Forall₂.nil)
    (by decide)

/-! ### Claim C4 -/

/-- C4 is violated by the code: `build()` after `into_builder()` is not
semantically equivalent to the first build.  In the first build the `helper`
context (id 0) of grammar `P` is inside the prototype walk (reached through
the then-unlinked `Push [Named "helper"]` of the `prototype` context), so its
`prototype` field stays `none`; the first link rewrites that operand to
`Direct 0`, and `recursively_mark_no_prototype` does not traverse `Direct`
references, so on rebuild `helper` falls outside the walk and gets
`prototype = some 2`.  `get_context` on the corresponding id 0 therefore
returns different contexts. -/
theorem claim_C4_bug :
    (SyntaxSetBuilder.build exBuilder).get_context ⟨0⟩ ≠
      (SyntaxSetBuilder.build
        (SyntaxSet.into_builder (SyntaxSetBuilder.build exBuilder))).get_context ⟨0⟩ ∧
    ((SyntaxSetBuilder.build exBuilder).get_context ⟨0⟩).map
        (fun c => c.prototype) = some none ∧
    ((SyntaxSetBuilder.build
        (SyntaxSet.into_builder (SyntaxSetBuilder.build exBuilder))).get_context
          ⟨0⟩).map (fun c => c.prototype) = some (some ⟨2⟩) := by
  refine ⟨by decide, by decide, by decide⟩

/-! ### Claim C5 -/

/-- C5: `build` never fails on a reference: when a `ContextReference` (in an
`Include`, a `Push`/`Set` operand, or a `with_prototype` slot) cannot be
resolved, `link_ref` leaves it in its original form and raises no error; when
it can be resolved it is replaced in place by `Direct(id)`; `Direct` is never
re-resolved; and `link_context` applies exactly this rewrite to every
reference position of a context. -/
theorem claim_C5 (syn : SyntaxReference) (syns : List SyntaxReference) :
    (∀ r, resolveRef syn syns r = none → link_ref syn syns r = r) ∧
    (∀ r id, resolveRef syn syns r = some id →
      link_ref syn syns r = ContextReference.Direct id) ∧
    (∀ id, resolveRef syn syns (ContextReference.Direct id) = none) ∧
    (∀ c, ctxRefs (link_context syn syns c) = (ctxRefs c).map (link_ref syn syns)) := by
  refine ⟨?_, ?_, ?_, ?_⟩
  · intro r h
    unfold link_ref
    rw [h]
  · intro r id h
    unfold link_ref
    rw [h]
  · intro id
    rfl
  · intro c
    exact ctxRefs_link_context syn syns c

/-- Witness for C5: a reference to a missing context survives unchanged, a
resolvable one becomes `Direct`, and a `Direct` reference never resolves. -/
theorem claim_C5_witness :
    link_ref exSynP [exSynP] (ContextReference.Named "nosuch")
        = ContextReference.Named "nosuch" ∧
    link_ref exSynP [exSynP] (ContextReference.Named "helper")
        = ContextReference.Direct ⟨0⟩ ∧
    resolveRef exSynP [exSynP] (ContextReference.Direct ⟨5⟩) = none :=
  ⟨(claim_C5 exSynP [exSynP]).1 _ (by decide),
   (claim_C5 exSynP [exSynP]).2.1 _ ⟨0⟩ (by decide),
   (claim_C5 exSynP [exSynP]).2.2.1 ⟨5⟩⟩

/-! ### Claim C6 -/

/-- C6: a `Named` or `Inline` reference whose string is exactly
`$top_level_main` resolves to the current grammar's `main` context (and is
left unresolved when the grammar has no `main`); every other `Named`/`Inline`
string is looked up in the current grammar's own context map only — the
result never depends on the other grammars. -/
theorem claim_C6 (syn : SyntaxReference) (syns : List SyntaxReference) :
    (∀ id, mapGet syn.contexts "main" = some id →
      link_ref syn syns (ContextReference.Named "$top_level_main")
          = ContextReference.Direct id ∧
      link_ref syn syns (ContextReference.Inline "$top_level_main")
          = ContextReference.Direct id) ∧
    (mapGet syn.contexts "main" = none →
      link_ref syn syns (ContextReference.Named "$top_level_main")
          = ContextReference.Named "$top_level_main" ∧
      link_ref syn syns (ContextReference.Inline "$top_level_main")
          = ContextReference.Inline "$top_level_main") ∧
    (∀ s, s ≠ "$top_level_main" →
      resolveRef syn syns (ContextReference.Named s) = mapGet syn.contexts s ∧
      resolveRef syn syns (ContextReference.Inline s) = mapGet syn.contexts s) ∧
    (∀ s (syns' : List SyntaxReference),
      resolveRef syn syns (ContextReference.Named s)
          = resolveRef syn syns' (ContextReference.Named s) ∧
      resolveRef syn syns (ContextReference.Inline s)
          = resolveRef syn syns' (ContextReference.Inline s)) := by
  refine ⟨?_, ?_, ?_, ?_⟩
  · intro id h
    constructor <;> simp [link_ref, resolveRef, h]
  · intro h
    constructor <;> simp [link_ref, resolveRef, h]
  · intro s hs
    constructor <;> simp [resolveRef, hs]
  · intro s syns'
    constructor <;> rfl

/-- Witness for C6 at the example grammar (`main` has id 1). -/
theorem claim_C6_witness :
    link_ref exSynP [] (ContextReference.Named "$top_level_main")
        = ContextReference.Direct ⟨1⟩ ∧
    resolveRef exSynP [] (ContextReference.Named "helper")
        = mapGet exSynP.contexts "helper" :=
  ⟨((claim_C6 exSynP []).1 ⟨1⟩ (by decide)).1,
   ((claim_C6 exSynP []).2.2.1 "helper" (by decide)).1⟩

/-! ### Claim C7 -/

/-- A linked grammar with no first-line pattern (and extension `rs`). -/
def exSynA : SyntaxReference :=
  { name := "A"
    file_extensions := ["rs"]
    scope := "source.a"
    first_line_match := none
    hidden := false
    vars := []
    contexts := [] }

/-- A linked grammar whose first-line pattern is `B1`. -/
def exSynB : SyntaxReference :=
  { name := "B"
    file_extensions := ["b"]
    scope := "source.b"
    first_line_match := some "B1"
    hidden := false
    vars := []
    contexts := [] }

/-- C7 is violated by the code: filling the cache from a prior state with
`cached_until = 1` over two grammars `[A, B]` — where only `B`, at absolute
position 1, has a `first_line_match` — stores the pair `("B1", 0)`: the index
is the enumeration index of the tail slice `syntaxes[1..]`, not `B`'s
position in the full sequence.  `find_syntax_by_first_line` then uses that
index absolutely and returns grammar `A`, which has no first-line regex at
all. -/
theorem claim_C7_bug :
    (ensure_filled (fun s => some s)
        { regexes := [], cached_until := 1 } [exSynA, exSynB]).regexes
      = [("B1", 0)] ∧
    (ensure_filled (fun s => some s)
        { regexes := [], cached_until := 1 } [exSynA, exSynB]).cached_until = 2 ∧
    exSynB.first_line_match = some "B1" ∧
    exSynA.first_line_match = none ∧
    (SyntaxSet.find_syntax_by_first_line
        { syntaxes := [exSynA, exSynB], contexts := [], path_syntaxes := [] }
        (fun s => some s) (fun _ _ => true)
        { regexes := [], cached_until := 1 } "B1 is the first line").1
      = some exSynA := by
  refine ⟨by decide, by decide, by decide, by decide, by decide⟩

/-! ### Claim C8 -/

/-- C8: `find_syntax_for_file` first tries the basename as an extension, then
the dotted extension; when either succeeds the grammar is returned without
the file being consulted; only otherwise is the file's first line used — an
I/O error from opening or reading propagates as the error result, and
otherwise the (possibly absent) `find_syntax_by_first_line` result on that
line is returned. -/
theorem claim_C8 {R : Type} (S : SyntaxSet) (compile : String → Option R)
    (search : R → String → Bool) (cache : FirstLineCache R) (path : String) :
    (∀ s, S.find_syntax_by_extension ((pathFileName path).getD "") = some s →
      ∀ file, S.find_syntax_for_file compile search cache path file
        = Except.ok (some s)) ∧
    (S.find_syntax_by_extension ((pathFileName path).getD "") = none →
      ∀ s, S.find_syntax_by_extension ((pathExtension path).getD "") = some s →
      ∀ file, S.find_syntax_for_file compile search cache path file
        = Except.ok (some s)) ∧
    (S.find_syntax_by_extension ((pathFileName path).getD "") = none →
      S.find_syntax_by_extension ((pathExtension path).getD "") = none →
      (∀ e, S.find_syntax_for_file compile search cache path (Except.error e)
          = Except.error e) ∧
      (∀ line, S.find_syntax_for_file compile search cache path (Except.ok line)
          = Except.ok (S.find_syntax_by_first_line compile search cache line).1)) := by
  refine ⟨?_, ?_, ?_⟩
  · intro s hs file
    simp [SyntaxSet.find_syntax_for_file, hs]
  · intro hfn s hs file
    simp [SyntaxSet.find_syntax_for_file, hfn, hs]
  · intro hfn hext
    constructor
    · intro e
      simp [SyntaxSet.find_syntax_for_file, hfn, hext]
    · intro line
      simp [SyntaxSet.find_syntax_for_file, hfn, hext]

/-- Witness for C8: for `parser.rs` the dotted extension `rs` matches grammar
`A` (the basename `parser.rs` matches nothing), so the file is never
consulted — the result is the same even when opening the file would fail. -/
theorem claim_C8_witness :
    SyntaxSet.find_syntax_for_file
        { syntaxes := [exSynA, exSynB], contexts := [], path_syntaxes := [] }
        (fun (s : String) => some s) (fun _ _ => true)
        { regexes := [], cached_until := 0 } "testdata/parser.rs"
        (Except.error "permission denied")
      = Except.ok (some exSynA) :=
  (claim_C8 { syntaxes := [exSynA, exSynB], contexts := [], path_syntaxes := [] }
      (fun (s : String) => some s) (fun _ _ => true)
      { regexes := [], cached_until := 0 } "testdata/parser.rs").2.1
    (by decide) exSynA (by decide) (Except.error "permission denied")

/-! ### Claim C9 -/

theorem find?_prefix_eq {α : Type} (p : α → Bool) :
    ∀ (pre : List α) (t : α) (post : List α),
      (∀ u ∈ pre, p u = false) → p t = true →
      (pre ++ t :: post).find? p = some t := by
  intro pre
  induction pre with
  | nil =>
    intro t post _ ht
    simpa using List.find?_cons_of_pos post ht
  | cons a rest ih =>
    intro t post hpre ht
    rw [List.cons_append, List.find?_cons_of_neg _
      (by simp [hpre a (List.mem_cons_self _ _)])]
    exact ih t post (fun u hu => hpre u (List.mem_cons.mpr (Or.inr hu))) ht

/-- C9: `find_syntax_by_path p` returns a grammar iff some recorded entry's
stored path equals `p` or ends with `"/" + p`; it returns the grammar of the
first such entry in recorded order; and when no entry qualifies — even if
some stored path merely ends with `p` without the preceding `/` — the result
is `none`. -/
theorem claim_C9 (S : SyntaxSet) (p : String)
    (hvalid : ∀ t ∈ S.path_syntaxes, t.2 < S.syntaxes.length) :
    ((S.find_syntax_by_path p).isSome = true ↔
      ∃ t ∈ S.path_syntaxes, t.1 = p ∨ strEndsWith t.1 ("/" ++ p) = true) ∧
    (∀ pre t post, S.path_syntaxes = pre ++ t :: post →
      (∀ u ∈ pre, ¬(u.1 = p ∨ strEndsWith u.1 ("/" ++ p) = true)) →
      (t.1 = p ∨ strEndsWith t.1 ("/" ++ p) = true) →
      S.find_syntax_by_path p = S.syntaxes[t.2]?) ∧
    ((∀ t ∈ S.path_syntaxes, t.1 ≠ p ∧ strEndsWith t.1 ("/" ++ p) = false) →
      S.find_syntax_by_path p = none) := by
  have hpred : ∀ t : String × Nat,
      ((strEndsWith t.1 ("/" ++ p) || (t.1 = p : Bool)) = true)
        ↔ (t.1 = p ∨ strEndsWith t.1 ("/" ++ p) = true) := by
    intro t
    simp only [Bool.or_eq_true, decide_eq_true_eq]
    exact or_comm
  refine ⟨?_, ?_, ?_⟩
  · unfold SyntaxSet.find_syntax_by_path
    cases hf : S.path_syntaxes.find?
        (fun t => strEndsWith t.1 ("/" ++ p) || (t.1 = p : Bool)) with
    | none =>
      simp only [hf, Option.none_bind, Option.isSome_none]
      constructor
      · intro h
        cases h
      · rintro ⟨t, ht, hcond⟩
        have hnp := List.find?_eq_none.mp hf t ht
        exact absurd ((hpred t).mpr hcond) hnp
    | some t =>
      simp only [hf, Option.some_bind]
      constructor
      · intro _
        have hp := List.find?_some hf
        exact ⟨t, List.mem_of_find?_eq_some hf, (hpred t).mp hp⟩
      · intro _
        rw [isSome_getElem?_iff]
        exact hvalid t (List.mem_of_find?_eq_some hf)
  · intro pre t post hdec hpre ht
    unfold SyntaxSet.find_syntax_by_path
    rw [hdec, find?_prefix_eq _ pre t post ?_ ((hpred t).mpr ht)]
    · rfl
    · intro u hu
      rw [Bool.eq_false_iff]
      intro hp
      exact hpre u hu ((hpred u).mp hp)
  · intro hall
    unfold SyntaxSet.find_syntax_by_path
    rw [List.find?_eq_none.mpr ?_]
    · rfl
    · intro t ht
      rw [Bool.not_eq_true, Bool.eq_false_iff]
      intro hp
      rcases (hpred t).mp hp with h | h
      · exact (hall t ht).1 h
      · rw [(hall t ht).2] at h
        cases h

/-- The grammar set used for the C9 witness: one recorded path. -/
def exSet9 : SyntaxSet :=
  { syntaxes := [exSynA]
    contexts := []
    path_syntaxes := [("Packages/Rust/Rust.sublime-syntax", 0)] }

/-- Witness for C9: `Rust.sublime-syntax` matches the recorded path by the
`"/" + p` suffix rule. -/
theorem claim_C9_witness :
    (exSet9.find_syntax_by_path "Rust.sublime-syntax").isSome = true ↔
      ∃ t ∈ exSet9.path_syntaxes, t.1 = "Rust.sublime-syntax" ∨
        strEndsWith t.1 ("/" ++ "Rust.sublime-syntax") = true :=
  (claim_C9 exSet9 "Rust.sublime-syntax" (by decide)).1

/-! ### Claim C10 -/

/-- A grammar whose extension list holds the literal basename `Makefile`. -/
def exSynMake : SyntaxReference :=
  { name := "M"
    file_extensions := ["Makefile"]
    scope := "source.m"
    first_line_match := none
    hidden := false
    vars := []
    contexts := [] }

/-- A grammar whose extension list holds the empty string. -/
def exSynEmptyExt : SyntaxReference :=
  { name := "E"
    file_extensions := [""]
    scope := "source.e"
    first_line_match := none
    hidden := false
    vars := []
    contexts := [] }

/-- The grammar set used for C10. -/
def exSet10 : SyntaxSet :=
  { syntaxes := [exSynMake, exSynEmptyExt], contexts := [], path_syntaxes := [] }

/-- C10 as stated fails on the code: for the extensionless path `Makefile`,
although a grammar whose `file_extensions` contains the empty string is
present, the returned grammar is `M` — the whole basename `Makefile` is tried
as an extension first and matches `M`, whose extension list does not contain
the empty string. -/
theorem claim_C10_counterexample :
    pathExtension "Makefile" = none ∧
    "" ∈ exSynEmptyExt.file_extensions ∧
    exSynEmptyExt ∈ exSet10.syntaxes ∧
    SyntaxSet.find_syntax_for_file exSet10 (fun (s : String) => some s)
        (fun _ _ => true) { regexes := [], cached_until := 0 } "Makefile"
        (Except.ok "line")
      = Except.ok (some exSynMake) ∧
    "" ∉ exSynMake.file_extensions := by
  refine ⟨by decide, by decide, by decide, by rfl, by decide⟩

/-- C10 amended: an absent basename or extension is replaced by the empty
string before `find_syntax_by_extension` is called; consequently, for every
extensionless file name, when some grammar's `file_extensions` contains the
empty string, a grammar is returned without reading the file — the whole
basename is tried as an extension first, and only when it matches no grammar
is the returned grammar one whose `file_extensions` contains the empty
string. -/
theorem claim_C10 {R : Type} (S : SyntaxSet) (compile : String → Option R)
    (search : R → String → Bool) (cache : FirstLineCache R) (path : String)
    (hext : pathExtension path = none)
    (hempty : ∃ syn ∈ S.syntaxes, "" ∈ syn.file_extensions) :
    (∃ s, ∀ file, S.find_syntax_for_file compile search cache path file
        = Except.ok (some s)) ∧
    (∀ s, S.find_syntax_by_extension ((pathFileName path).getD "") = some s →
      ∀ file, S.find_syntax_for_file compile search cache path file
        = Except.ok (some s)) ∧
    (S.find_syntax_by_extension ((pathFileName path).getD "") = none →
      ∃ s, "" ∈ s.file_extensions ∧
        ∀ file, S.find_syntax_for_file compile search cache path file
          = Except.ok (some s)) := by
  have hemptyFind : ∃ s, S.find_syntax_by_extension "" = some s := by
    rcases hempty with ⟨syn, hsyn, hmem⟩
    rw [← Option.isSome_iff_exists]
    unfold SyntaxSet.find_syntax_by_extension
    rw [List.find?_isSome]
    exact ⟨syn, hsyn, List.any_eq_true.mpr ⟨"", hmem, by simp⟩⟩
  refine ⟨?_, ?_, ?_⟩
  · cases h1 : S.find_syntax_by_extension ((pathFileName path).getD "") with
    | some s =>
      exact ⟨s, fun file => by simp [SyntaxSet.find_syntax_for_file, h1]⟩
    | none =>
      rcases hemptyFind with ⟨s, hs⟩
      refine ⟨s, fun file => ?_⟩
      simp [SyntaxSet.find_syntax_for_file, h1, hext, hs]
  · intro s hs file
    simp [SyntaxSet.find_syntax_for_file, hs]
  · intro hfn
    rcases hemptyFind with ⟨s, hs⟩
    refine ⟨s, ?_, fun file => ?_⟩
    · have hps := List.find?_some hs
      rcases List.any_eq_true.mp hps with ⟨e, hemem, he⟩
      have : e = "" := by simpa using he
      exact this ▸ hemem
    · simp [SyntaxSet.find_syntax_for_file, hfn, hext, hs]

/-- Witness for C10 (amended) at the extensionless path `Justfile`, which
matches no basename: the grammar with the empty extension is returned without
the file being read. -/
theorem claim_C10_witness :
    ∃ s, "" ∈ s.file_extensions ∧
      ∀ file, SyntaxSet.find_syntax_for_file exSet10 (fun (s : String) => some s)
          (fun _ _ => true) { regexes := [], cached_until := 0 } "Justfile" file
        = Except.ok (some s) :=
  (claim_C10 exSet10 (fun (s : String) => some s) (fun _ _ => true)
      { regexes := [], cached_until := 0 } "Justfile" (by decide)
      ⟨exSynEmptyExt, by decide, by decide⟩).2.2 (by decide)

/-! ### Fuel stability of the prototype walk

The Rust walk terminates through the inserted set alone; the embedding drives
the same recursion with a fuel argument.  The lemmas below show the fuel is
irrelevant once it exceeds the number of entries of the grammar's context
map, so the `contexts.length + 1` used by `build` (which dominates that
bound for any built grammar) computes the Rust closure exactly. -/

theorem rm_subset (syn : SyntaxReference) (ctxs : List Context) :
    ∀ fuel cid (acc : List Nat),
      acc ⊆ recursively_mark_no_prototype syn ctxs fuel cid acc := by
  intro fuel
  induction fuel with
  | zero => intro cid acc; exact fun x hx => hx
  | succ fuel ih =>
    intro cid acc
    simp only [recursively_mark_no_prototype]
    by_cases h : cid ∈ acc
    · simp only [h, ite_true, if_true]
      exact fun x hx => hx
    · simp only [h, ite_false, if_false]
      have hfold : ∀ (ts : List Nat) (a : List Nat),
          a ⊆ ts.foldl (fun a i => recursively_mark_no_prototype syn ctxs fuel i a) a := by
        intro ts
        induction ts with
        | nil => intro a; exact fun x hx => hx
        | cons t rest ihts =>
          intro a
          simp only [List.foldl_cons]
          exact fun x hx => ihts _ (ih t a hx)
      exact fun x hx => hfold _ (cid :: acc) (List.mem_cons.mpr (Or.inr hx))

theorem filter_length_mono {α : Type} (l : List α) (p q : α → Bool)
    (h : ∀ x, q x = true → p x = true) :
    (l.filter q).length ≤ (l.filter p).length := by
  induction l with
  | nil => exact Nat.le_refl 0
  | cons a rest ih =>
    rw [List.filter_cons, List.filter_cons]
    cases hq : q a with
    | true =>
      rw [h a hq]
      simpa using Nat.succ_le_succ ih
    | false =>
      cases hp : p a with
      | true =>
        simp only [Bool.false_eq_true, if_false, ite_false, if_true, ite_true]
        exact Nat.le_succ_of_le ih
      | false =>
        simp only [Bool.false_eq_true, if_false, ite_false]
        exact ih

/-- The ids of the context map still missing from the inserted set. -/
def missingIds (syn : SyntaxReference) (acc : List Nat) : List Nat :=
  (mapIds syn).filter (fun i => !(acc.contains i))

theorem missingIds_anti (syn : SyntaxReference) {acc acc' : List Nat}
    (h : acc ⊆ acc') :
    (missingIds syn acc').length ≤ (missingIds syn acc).length := by
  apply filter_length_mono
  intro x hx
  rw [Bool.not_eq_true'] at hx ⊢
  rw [← Bool.not_eq_true] at hx ⊢
  intro hc
  exact hx (List.elem_iff.mpr (h (List.elem_iff.mp hc)))

theorem missingIds_insert_lt (syn : SyntaxReference) (acc : List Nat) (c : Nat)
    (hc : c ∈ mapIds syn) (hnc : c ∉ acc) :
    (missingIds syn (c :: acc)).length < (missingIds syn acc).length := by
  have heq : missingIds syn (c :: acc)
      = (missingIds syn acc).filter (fun i => !(i == c)) := by
    unfold missingIds
    rw [List.filter_filter]
    apply List.filter_congr
    intro x _
    rw [List.contains_cons]
    cases hxc : (x == c : Bool) <;> cases hxa : acc.contains x <;> simp [hxc, hxa]
  rw [heq]
  apply List.length_filter_lt_length_iff_exists.mpr
  refine ⟨c, ?_, by simp⟩
  unfold missingIds
  rw [List.mem_filter]
  refine ⟨hc, ?_⟩
  rw [Bool.not_eq_true', ← Bool.not_eq_true]
  intro hcont
  exact hnc (List.elem_iff.mp hcont)

/-- Above the `missingIds` bound the walk's result does not depend on the
fuel. -/
theorem rm_fuel_stable (syn : SyntaxReference) (ctxs : List Context) :
    ∀ fuel cid (acc : List Nat), cid ∈ mapIds syn →
      (missingIds syn acc).length < fuel →
      ∀ fuel', fuel ≤ fuel' →
        recursively_mark_no_prototype syn ctxs fuel' cid acc
          = recursively_mark_no_prototype syn ctxs fuel cid acc := by
  intro fuel
  induction fuel with
  | zero => intro cid acc _ h; omega
  | succ fuel ih =>
    intro cid acc hcid hmiss fuel' hle
    rcases Nat.exists_eq_add_of_le hle with ⟨d, rfl⟩
    have : fuel + 1 + d = (fuel + d) + 1 := by omega
    rw [this]
    simp only [recursively_mark_no_prototype]
    by_cases h : cid ∈ acc
    · simp [h]
    · simp only [h, ite_false, if_false]
      have hmiss' : (missingIds syn (cid :: acc)).length < fuel :=
        Nat.lt_of_lt_of_le (missingIds_insert_lt syn acc cid hcid h)
          (Nat.lt_succ_iff.mp hmiss)
      have hfold : ∀ (ts : List Nat), (∀ t ∈ ts, t ∈ mapIds syn) →
          ∀ (a : List Nat), (missingIds syn a).length < fuel →
          ts.foldl (fun a i => recursively_mark_no_prototype syn ctxs (fuel + d) i a) a
            = ts.foldl (fun a i => recursively_mark_no_prototype syn ctxs fuel i a) a := by
        intro ts
        induction ts with
        | nil => intro _ a _; rfl
        | cons t rest ihts =>
          intro hts a hma
          simp only [List.foldl_cons]
          rw [ih t a (hts t (List.mem_cons_self t rest)) hma (fuel + d) (Nat.le_add_right _ _)]
          refine ihts (fun u hu => hts u (List.mem_cons.mpr (Or.inr hu))) _ ?_
          exact Nat.lt_of_le_of_lt
            (missingIds_anti syn (rm_subset syn ctxs fuel t a)) hma
      exact hfold _ (fun t ht => protoTargets_subset ht) (cid :: acc) hmiss'

/-- In any built set the fuel `contexts.length + 1` used by `build` lies in
the stable regime: for every grammar of the set, any fuel at least
`contexts.length + 1` computes the same no-prototype set. -/
theorem build_noProto_fuel_canonical (b : SyntaxSetBuilder) (syn : SyntaxReference)
    (hsyn : syn ∈ (SyntaxSetBuilder.build b).syntaxes)
    (cid : Nat) (hcid : cid ∈ mapIds syn)
    (fuel : Nat) (hfuel : (assignFrom 0 b.syntaxes).2.length + 1 ≤ fuel) :
    recursively_mark_no_prototype syn (assignFrom 0 b.syntaxes).2 fuel cid []
      = recursively_mark_no_prototype syn (assignFrom 0 b.syntaxes).2
          ((assignFrom 0 b.syntaxes).2.length + 1) cid [] := by
  have hlen : (mapIds syn).length ≤ (assignFrom 0 b.syntaxes).2.length := by
    rw [assignFrom_snd_length]
    have hnd := build_mapIds_nodup b syn hsyn
    have hlt := build_mapIds_lt b syn hsyn
    have h1 : (mapIds syn).toFinset ⊆ Finset.range (totalCtxs b.syntaxes) := by
      intro x hx
      rw [Finset.mem_range]
      exact hlt x (List.mem_toFinset.mp hx)
    have h2 := Finset.card_le_card h1
    rw [Finset.card_range] at h2
    rwa [List.toFinset_card_of_nodup hnd] at h2
  have hmiss : (missingIds syn []).length < (assignFrom 0 b.syntaxes).2.length + 1 := by
    have : (missingIds syn []).length ≤ (mapIds syn).length :=
      List.length_filter_le _ _
    omega
  exact rm_fuel_stable syn (assignFrom 0 b.syntaxes).2
    ((assignFrom 0 b.syntaxes).2.length + 1) cid [] hcid hmiss fuel hfuel
